import Mathlib

/-!
# Verification of the page-replacement simulator (`src/main.py`)

Shallow embedding of the simulator: the access streams (`MemoryAccessor`),
the eight replacement engines ({Opt, FIFO, LFU, LRU} x {Global, Local}),
and the round-robin `simulate` driver.

Modelling conventions:
* Python `dict` (insertion ordered, unique keys) is an association list
  with first-match lookup/update; `del` removes the first matching key.
* Python `deque` is a plain list (popleft = head, append = snoc).
* Python `set` is a duplicate-guarded list (`setAdd` refuses duplicates,
  `List.erase` implements `set.remove`); its iteration order is only used
  where the original's behaviour does not depend on it.
* `float("inf")` next-use distances are the `Dist.inf` constructor.
* Exceptions are `Option`/`UseRes`: `none` models a Python runtime error
  (`IndexError`/`ValueError`/`KeyError` on an empty or missing collection),
  `UseRes.fault` models the `PageFault` exception caught by `simulate`.
* `MemoryAccessor._idx` starts at `-1` in Python and is only read after an
  increment; the field `calls` here stores `_idx + 1`, the number of
  `next()` calls made so far.
-/

set_option maxRecDepth 10000

namespace PageSim

/-! ## Python container primitives -/

abbrev Dict (β : Type) := List (String × β)

/-- First-match lookup in an insertion-ordered dictionary (`d[k]`). -/
def dictGet {β : Type} : Dict β → String → Option β
  | [], _ => none
  | p :: rest, k => if p.1 = k then some p.2 else dictGet rest k

/-- `d[k] = v`: update the first entry with key `k` in place, else append. -/
def dictSet {β : Type} : Dict β → String → β → Dict β
  | [], k, v => [(k, v)]
  | p :: rest, k, v => if p.1 = k then (k, v) :: rest else p :: dictSet rest k v

/-- `del d[k]`: drop the first entry with key `k`. -/
def dictDel {β : Type} : Dict β → String → Dict β
  | [], _ => []
  | p :: rest, k => if p.1 = k then rest else p :: dictDel rest k

def dictKeys {β : Type} (d : Dict β) : List String := d.map Prod.fst

/-- `s.add(x)` on a Python set: no-op when the element is present. -/
def setAdd (s : List String) (x : String) : List String :=
  if x ∈ s then s else s ++ [x]

/-- Python `max(l, key=...)` / `min(l, key=...)`: fold keeping the current
best, replacing it only when `better current candidate` holds, so the first
optimum in iteration order wins.  `none` models the `ValueError` raised on an
empty collection. -/
def pyExtreme {α : Type} (better : α → α → Bool) : List α → Option α
  | [] => none
  | x :: xs => some (xs.foldl (fun acc y => if better acc y then y else acc) x)

/-- A next-use distance: a step count or `float("inf")`. -/
inductive Dist where
  | fin (n : Nat)
  | inf
deriving DecidableEq

/-- Strict comparison of distances, with `inf` as the top element. -/
def distLt : Dist → Dist → Bool
  | Dist.fin m, Dist.fin n => m < n
  | Dist.fin _, Dist.inf => true
  | Dist.inf, _ => false

/-- `pages.index(page_id, start)`: index of the first occurrence at or after
`start`, `none` for Python's `ValueError`. -/
def indexFrom (l : List String) (page : String) (start : Nat) : Option Nat :=
  ((l.drop start).findIdx? (fun s => s == page)).map (fun i => i + start)

/-! ## MemoryAccessor -/

structure MemoryAccessor where
  pid : String
  accesses : List String
  /-- Number of `next()` calls so far (`_idx + 1` in the source). -/
  calls : Nat
deriving DecidableEq

/-- `MemoryAccessor(pid, accesses)`: each page number is materialised as the
string `f"{pid}{page}"`; the cursor starts before the first element. -/
def MemoryAccessor.make (pid : String) (pages : List Nat) : MemoryAccessor :=
  ⟨pid, pages.map (fun page => pid ++ toString page), 0⟩

/-- `__next__`: advance the cursor, return the element there if any and the
terminal marker `none` (Python `None`) otherwise. -/
def MemoryAccessor.next (a : MemoryAccessor) : MemoryAccessor × Option String :=
  ({ a with calls := a.calls + 1 }, a.accesses.get? a.calls)

/-! ## The engine interface (`PhysicsMemory`) -/

/-- Result of `use`: success, the `PageFault` exception, or a `KeyError`
runtime error (possible only for local engines given an unknown pid). -/
inductive UseRes (σ : Type) where
  | ok (m : σ)
  | fault
  | err

/-- The abstract `PhysicsMemory` contract.  `contains`/`swap`/`allocate`
return `none` exactly where the Python code would raise a runtime error
(`KeyError`, or `popleft`/`min`/`max` on an empty collection). -/
structure Engine (σ : Type) where
  contains : σ → String → String → Option Bool
  is_free : σ → Bool
  use : σ → String → String → UseRes σ
  swap : σ → String → Option (String × σ)
  allocate : σ → String → String → Option σ
  tick : σ → σ

inductive Outcome where
  | allocation
  | hit
  | fault (evicted : String)
deriving DecidableEq

/-- The `try: use / except PageFault: swap; allocate` block of `simulate`.
Returns the new memory, the trace outcome and the fault-counter increment. -/
def usePath {σ : Type} (E : Engine σ) (m1 : σ) (pid page : String) :
    Option (σ × Outcome × Nat) :=
  match E.use m1 pid page with
  | UseRes.ok m2 => some (m2, Outcome.hit, 0)
  | UseRes.err => none
  | UseRes.fault =>
    match E.swap m1 pid with
    | none => none
    | some (victim, m2) =>
      match E.allocate m2 pid page with
      | none => none
      | some m3 => some (m3, Outcome.fault victim, 1)

/-- One reference of the `simulate` loop body: `tick`, then the short-circuit
`is_free() and not contains(...)` allocation fast path, else the
hit-or-fault slow path. -/
def stepRef {σ : Type} (E : Engine σ) (mem : σ) (pid page : String) :
    Option (σ × Outcome × Nat) :=
  let m1 := E.tick mem
  if E.is_free m1 then
    match E.contains m1 pid page with
    | none => none
    | some true => usePath E m1 pid page
    | some false =>
      match E.allocate m1 pid page with
      | none => none
      | some m2 => some (m2, Outcome.allocation, 0)
  else
    usePath E m1 pid page

/-! ## Global engines -/

structure GlobalOptMemory where
  size : Nat
  accesses : List String
  /-- `set(self._accesses)`; kept as a list because its (arbitrary) iteration
  order decides only undocumented tie-breaks. -/
  pages : List String
  page_pointer : Int
  memory : List String
  pointers_count : Dict Dist
deriving DecidableEq

def GlobalOptMemory.make (accesses : List String) (size : Nat) : GlobalOptMemory :=
  ⟨size, accesses, accesses.eraseDups, -1, [], []⟩

def GlobalOptMemory.tick (m : GlobalOptMemory) : GlobalOptMemory :=
  let p := m.page_pointer + 1
  { m with
    page_pointer := p
    pointers_count := m.pages.foldl (fun pc page =>
      match indexFrom m.accesses page p.toNat with
      | some idx => dictSet pc page (Dist.fin (idx - p.toNat))
      | none => dictSet pc page Dist.inf) m.pointers_count }

def GlobalOptMemory.swap (m : GlobalOptMemory) (_pid : String) :
    Option (String × GlobalOptMemory) :=
  let pim := m.pointers_count.filter (fun p => decide (p.1 ∈ m.memory))
  match pyExtreme (fun acc y => distLt acc.2 y.2) pim with
  | none => none
  | some md => some (md.1, { m with memory := m.memory.erase md.1 })

def GlobalOptMemory.engine : Engine GlobalOptMemory where
  contains m _pid page := some (decide (page ∈ m.memory))
  is_free m := m.memory.length < m.size
  use m _pid page := if page ∈ m.memory then UseRes.ok m else UseRes.fault
  swap := GlobalOptMemory.swap
  allocate m _pid page := some { m with memory := setAdd m.memory page }
  tick := GlobalOptMemory.tick

structure GlobalFifoMemory where
  size : Nat
  memory : List String
deriving DecidableEq

def GlobalFifoMemory.engine : Engine GlobalFifoMemory where
  contains m _pid page := some (decide (page ∈ m.memory))
  is_free m := m.memory.length < m.size
  use m _pid page := if page ∈ m.memory then UseRes.ok m else UseRes.fault
  swap m _pid :=
    match m.memory with
    | [] => none
    | h :: t => some (h, { m with memory := t })
  allocate m _pid page := some { m with memory := m.memory ++ [page] }
  tick m := m

structure GlobalLfuMemory where
  size : Nat
  memory : Dict Nat
deriving DecidableEq

def GlobalLfuMemory.engine : Engine GlobalLfuMemory where
  contains m _pid page := some (decide (page ∈ dictKeys m.memory))
  is_free m := m.memory.length < m.size
  use m _pid page :=
    match dictGet m.memory page with
    | none => UseRes.fault
    | some c => UseRes.ok { m with memory := dictSet m.memory page (c + 1) }
  swap m _pid :=
    match pyExtreme (fun acc y => y.2 < acc.2) m.memory with
    | none => none
    | some p => some (p.1, { m with memory := dictDel m.memory p.1 })
  allocate m _pid page := some { m with memory := dictSet m.memory page 1 }
  tick m := m

structure GlobalLruMemory where
  size : Nat
  memory : Dict Nat
deriving DecidableEq

def GlobalLruMemory.engine : Engine GlobalLruMemory where
  contains m _pid page := some (decide (page ∈ dictKeys m.memory))
  is_free m := m.memory.length < m.size
  use m _pid page :=
    match dictGet m.memory page with
    | none => UseRes.fault
    | some _ => UseRes.ok { m with memory := dictSet m.memory page 0 }
  swap m _pid :=
    match pyExtreme (fun acc y => acc.2 < y.2) m.memory with
    | none => none
    | some p => some (p.1, { m with memory := dictDel m.memory p.1 })
  allocate m _pid page := some { m with memory := dictSet m.memory page 0 }
  tick m := { m with memory := m.memory.map (fun p => (p.1, p.2 + 1)) }

/-! ## Local engines -/

structure LocalOptMemory where
  size : Nat
  accesses : List String
  pages : List String
  page_pointer : Int
  /-- `dict(pid -> set of resident pages)`. -/
  memory : Dict (List String)
  pointers_count : Dict Dist
deriving DecidableEq

def LocalOptMemory.make (pids : List String) (accesses : List String)
    (size : Nat) : LocalOptMemory :=
  ⟨size, accesses, accesses.eraseDups, -1, pids.map (fun pid => (pid, [])), []⟩

def LocalOptMemory.tick (m : LocalOptMemory) : LocalOptMemory :=
  let p := m.page_pointer + 1
  { m with
    page_pointer := p
    pointers_count := m.pages.foldl (fun pc page =>
      match indexFrom m.accesses page p.toNat with
      | some idx => dictSet pc page (Dist.fin (idx - p.toNat))
      | none => dictSet pc page Dist.inf) m.pointers_count }

def LocalOptMemory.swap (m : LocalOptMemory) (pid : String) :
    Option (String × LocalOptMemory) :=
  match dictGet m.memory pid with
  | none => none
  | some loc =>
    let pim := m.pointers_count.filter (fun p => decide (p.1 ∈ loc))
    match pyExtreme (fun acc y => distLt acc.2 y.2) pim with
    | none => none
    | some md =>
      some (md.1, { m with memory := dictSet m.memory pid (loc.erase md.1) })

def LocalOptMemory.engine : Engine LocalOptMemory where
  contains m pid page := (dictGet m.memory pid).map (fun loc => decide (page ∈ loc))
  is_free m := (m.memory.map (fun p => p.2.length)).sum < m.size
  use m pid page :=
    match dictGet m.memory pid with
    | none => UseRes.err
    | some loc => if page ∈ loc then UseRes.ok m else UseRes.fault
  swap := LocalOptMemory.swap
  allocate m pid page :=
    match dictGet m.memory pid with
    | none => none
    | some loc => some { m with memory := dictSet m.memory pid (setAdd loc page) }
  tick := LocalOptMemory.tick

structure LocalFifoMemory where
  size : Nat
  /-- `dict(pid -> deque of resident pages)`. -/
  memory : Dict (List String)
deriving DecidableEq

def LocalFifoMemory.engine : Engine LocalFifoMemory where
  contains m pid page := (dictGet m.memory pid).map (fun loc => decide (page ∈ loc))
  is_free m := (m.memory.map (fun p => p.2.length)).sum < m.size
  use m pid page :=
    match dictGet m.memory pid with
    | none => UseRes.err
    | some loc => if page ∈ loc then UseRes.ok m else UseRes.fault
  swap m pid :=
    match dictGet m.memory pid with
    | none => none
    | some [] => none
    | some (h :: t) => some (h, { m with memory := dictSet m.memory pid t })
  allocate m pid page :=
    match dictGet m.memory pid with
    | none => none
    | some loc => some { m with memory := dictSet m.memory pid (loc ++ [page]) }
  tick m := m

structure LocalLfuMemory where
  size : Nat
  /-- `dict(pid -> dict(page -> hit count))`. -/
  memory : Dict (Dict Nat)
deriving DecidableEq

def LocalLfuMemory.engine : Engine LocalLfuMemory where
  contains m pid page := (dictGet m.memory pid).map (fun loc => decide (page ∈ dictKeys loc))
  is_free m := (m.memory.map (fun p => p.2.length)).sum < m.size
  use m pid page :=
    match dictGet m.memory pid with
    | none => UseRes.err
    | some loc =>
      match dictGet loc page with
      | none => UseRes.fault
      | some c =>
        UseRes.ok { m with memory := dictSet m.memory pid (dictSet loc page (c + 1)) }
  swap m pid :=
    match dictGet m.memory pid with
    | none => none
    | some loc =>
      match pyExtreme (fun acc y => y.2 < acc.2) loc with
      | none => none
      | some p =>
        some (p.1, { m with memory := dictSet m.memory pid (dictDel loc p.1) })
  allocate m pid page :=
    match dictGet m.memory pid with
    | none => none
    | some loc => some { m with memory := dictSet m.memory pid (dictSet loc page 1) }
  tick m := m

structure LocalLruMemory where
  size : Nat
  /-- `dict(pid -> dict(page -> recency counter))`. -/
  memory : Dict (Dict Nat)
deriving DecidableEq

def LocalLruMemory.engine : Engine LocalLruMemory where
  contains m pid page := (dictGet m.memory pid).map (fun loc => decide (page ∈ dictKeys loc))
  is_free m := (m.memory.map (fun p => p.2.length)).sum < m.size
  use m pid page :=
    match dictGet m.memory pid with
    | none => UseRes.err
    | some loc =>
      match dictGet loc page with
      | none => UseRes.fault
      | some _ =>
        UseRes.ok { m with memory := dictSet m.memory pid (dictSet loc page 0) }
  swap m pid :=
    match dictGet m.memory pid with
    | none => none
    | some loc =>
      match pyExtreme (fun acc y => acc.2 < y.2) loc with
      | none => none
      | some p =>
        some (p.1, { m with memory := dictSet m.memory pid (dictDel loc p.1) })
  allocate m pid page :=
    match dictGet m.memory pid with
    | none => none
    | some loc => some { m with memory := dictSet m.memory pid (dictSet loc page 0) }
  tick m :=
    { m with memory := m.memory.map (fun p => (p.1, p.2.map (fun q => (q.1, q.2 + 1)))) }

/-! ## The simulate driver -/

/-- One entry of the per-step trace: process id, page reference, outcome. -/
abbrev TraceEntry := String × String × Outcome

/-- One round-robin pass of the `while` loop: visit every accessor in order,
skip finished ones, retire those whose `next()` returns the terminal marker,
and feed each produced reference to the engine.  `none` propagates an engine
runtime error. -/
def runPass {σ : Type} (E : Engine σ) :
    List (MemoryAccessor × Bool) → σ → Nat → List TraceEntry →
    Option (List (MemoryAccessor × Bool) × σ × Nat × List TraceEntry)
  | [], mem, faults, tr => some ([], mem, faults, tr)
  | (a, fin) :: rest, mem, faults, tr =>
    if fin then
      (runPass E rest mem faults tr).map (fun r => ((a, fin) :: r.1, r.2))
    else
      match a.next with
      | (a', none) => (runPass E rest mem faults tr).map (fun r => ((a', true) :: r.1, r.2))
      | (a', some page) =>
        match stepRef E mem a.pid page with
        | none => none
        | some (m', o, d) =>
          (runPass E rest m' (faults + d) (tr ++ [(a.pid, page, o)])).map
            (fun r => ((a', false) :: r.1, r.2))

structure SimState (σ : Type) where
  accs : List (MemoryAccessor × Bool)
  mem : σ
  faults : Nat
  trace : List TraceEntry

inductive SimResult (σ : Type) where
  | ok (faults : Nat) (trace : List TraceEntry) (mem : σ)
  | engineError
  | outOfFuel
deriving DecidableEq

/-- The `while len(finished_accessors) < len(accessors)` loop of `simulate`,
with an explicit fuel parameter (the loop provably terminates, see the
measure below). -/
def simLoopFuel {σ : Type} (E : Engine σ) (fuel : Nat) (s : SimState σ) : SimResult σ :=
  if s.accs.all (fun e => e.2) then SimResult.ok s.faults s.trace s.mem
  else
    match fuel with
    | 0 => SimResult.outOfFuel
    | fuel' + 1 =>
      match runPass E s.accs s.mem s.faults s.trace with
      | none => SimResult.engineError
      | some (accs', m', f', tr') => simLoopFuel E fuel' ⟨accs', m', f', tr'⟩

/-- `simulate(accessors, memory)`: fresh fault counter and trace, no accessor
finished yet. -/
def initSim {σ : Type} (accessors : List MemoryAccessor) (mem : σ) : SimState σ :=
  ⟨accessors.map (fun a => (a, false)), mem, 0, []⟩

def simulate {σ : Type} (E : Engine σ) (fuel : Nat)
    (accessors : List MemoryAccessor) (mem : σ) : SimResult σ :=
  simLoopFuel E fuel (initSim accessors mem)

/-! ## Derived observers used by the specification -/

/-- Iterated `next()` calls (discarding the produced values). -/
def MemoryAccessor.nextIter (a : MemoryAccessor) : Nat → MemoryAccessor
  | 0 => a
  | k + 1 => (a.nextIter k).next.1

def GlobalOptMemory.residents (m : GlobalOptMemory) : Nat := m.memory.length

def GlobalFifoMemory.residents (m : GlobalFifoMemory) : Nat := m.memory.length

def GlobalLfuMemory.residents (m : GlobalLfuMemory) : Nat := m.memory.length

def GlobalLruMemory.residents (m : GlobalLruMemory) : Nat := m.memory.length

/-- Total resident count of a partitioned (local-scope) memory. -/
def localSum {π : Type} (plen : π → Nat) (d : Dict π) : Nat :=
  (d.map (fun p => plen p.2)).sum

def LocalOptMemory.residents (m : LocalOptMemory) : Nat :=
  localSum List.length m.memory

def LocalFifoMemory.residents (m : LocalFifoMemory) : Nat :=
  localSum List.length m.memory

def LocalLfuMemory.residents (m : LocalLfuMemory) : Nat :=
  localSum List.length m.memory

def LocalLruMemory.residents (m : LocalLruMemory) : Nat :=
  localSum List.length m.memory

/-- Size of one process's partition (`none` when the pid is unknown). -/
def LocalOptMemory.psz (m : LocalOptMemory) (pid : String) : Option Nat :=
  (dictGet m.memory pid).map List.length

def LocalFifoMemory.psz (m : LocalFifoMemory) (pid : String) : Option Nat :=
  (dictGet m.memory pid).map List.length

def LocalLfuMemory.psz (m : LocalLfuMemory) (pid : String) : Option Nat :=
  (dictGet m.memory pid).map List.length

def LocalLruMemory.psz (m : LocalLruMemory) (pid : String) : Option Nat :=
  (dictGet m.memory pid).map List.length

/-- Every resident page has a precomputed next-use distance. -/
def GlobalOptMemory.covered (m : GlobalOptMemory) : Prop :=
  ∀ p ∈ m.memory, p ∈ dictKeys m.pointers_count

/-- After a `tick`, additionally every page of the full trace has one. -/
def GlobalOptMemory.covered2 (m : GlobalOptMemory) : Prop :=
  m.covered ∧ ∀ p ∈ m.pages, p ∈ dictKeys m.pointers_count

def LocalOptMemory.covered (m : LocalOptMemory) : Prop :=
  ∀ e ∈ m.memory, ∀ pg ∈ e.2, pg ∈ dictKeys m.pointers_count

def LocalOptMemory.covered2 (m : LocalOptMemory) : Prop :=
  m.covered ∧ ∀ p ∈ m.pages, p ∈ dictKeys m.pointers_count

/-- Pages an accessor may legally reference against an Optimal engine: they
must occur in the full trace the engine was constructed from. -/
def GlobalOptMemory.pgOk (m : GlobalOptMemory) (pg : String) : Prop :=
  pg ∈ m.pages

def LocalOptMemory.pgOk (m : LocalOptMemory) (pg : String) : Prop :=
  pg ∈ m.pages

/-! ## Termination measure for the round-robin loop -/

/-- Remaining `next()` calls an accessor can absorb before being retired
(plus one so that retiring itself counts as progress). -/
def accWeight : MemoryAccessor × Bool → Nat
  | (_, true) => 0
  | (a, false) => (a.accesses.length + 1 - a.calls) + 1

def passMeasure (l : List (MemoryAccessor × Bool)) : Nat :=
  (l.map accWeight).sum

/-! ## Reachability by simulation steps -/

/-- States reachable from `m` by servicing references the way the `simulate`
loop body does. -/
inductive Reach {σ : Type} (E : Engine σ) : σ → σ → Prop where
  | refl (m : σ) : Reach E m m
  | step {m t t' : σ} {pid page : String} {o : Outcome} {d : Nat} :
      Reach E m t → stepRef E t pid page = some (t', o, d) → Reach E m t'

/-! ## Round-robin loop invariants -/

/-- References actually consumed by an accessor so far. -/
def consumed (a : MemoryAccessor) : Nat := min a.calls a.accesses.length

def consumedSum (l : List (MemoryAccessor × Bool)) : Nat :=
  (l.map (fun e => consumed e.1)).sum

/-- Mid-pass shape of the round-robin: already-visited accessors (`done`)
are one call ahead of the still-to-visit ones (`todo`); finished accessors
stopped at the call that overran their stream. -/
def Aligned (c : Nat) (done todo : List (MemoryAccessor × Bool)) : Prop :=
  (∀ e ∈ todo, e.2 = false → e.1.calls = c) ∧
  (∀ e ∈ done, e.2 = false → e.1.calls = c + 1) ∧
  (∀ e ∈ done ++ todo, e.2 = true →
    e.1.accesses.length + 1 ≤ e.1.calls ∧ e.1.calls ≤ c + 1)

/-- Behavioural facts shared by the four local-scope engines, phrased over a
partition-size observer `psz`, total `residents`, capacity `sizeN`, and the
auxiliary invariants `extra`/`extra2` (trivial except for Optimal). -/
structure LocalSpec {σ : Type} (E : Engine σ) (psz : σ → String → Option Nat)
    (residents sizeN : σ → Nat) (extra extra2 : σ → Prop)
    (PgOk : σ → String → Prop) : Prop where
  is_free_def : ∀ m, E.is_free m = decide (residents m < sizeN m)
  tick_psz : ∀ m pid, psz (E.tick m) pid = psz m pid
  tick_res : ∀ m, residents (E.tick m) = residents m
  tick_size : ∀ m, sizeN (E.tick m) = sizeN m
  tick_extra : ∀ m, extra m → extra2 (E.tick m)
  tick_pgok : ∀ m pg, PgOk m pg → PgOk (E.tick m) pg
  contains_none : ∀ m pid pg, E.contains m pid pg = none → psz m pid = none
  contains_true_use : ∀ m pid pg, E.contains m pid pg = some true →
    ∃ m', E.use m pid pg = UseRes.ok m'
  use_err : ∀ m pid pg, E.use m pid pg = UseRes.err → psz m pid = none
  use_fault_contains : ∀ m pid pg, E.use m pid pg = UseRes.fault →
    E.contains m pid pg = some false
  use_ok_facts : ∀ m pid pg m', E.use m pid pg = UseRes.ok m' →
    (∀ q, psz m' q = psz m q) ∧ residents m' = residents m ∧
    sizeN m' = sizeN m ∧ (extra2 m → extra m') ∧
    (∀ s, PgOk m s → PgOk m' s) ∧ ∃ n, psz m pid = some n ∧ 1 ≤ n
  swap_ok : ∀ m pid n, psz m pid = some n → 1 ≤ n → extra2 m →
    ∃ v m', E.swap m pid = some (v, m')
  swap_facts : ∀ m pid v m', E.swap m pid = some (v, m') →
    (∃ n, psz m pid = some n ∧ psz m' pid = some (n - 1)) ∧
    (∀ q, q ≠ pid → psz m' q = psz m q) ∧
    residents m' + 1 = residents m ∧ sizeN m' = sizeN m ∧
    (extra2 m → extra2 m') ∧ (∀ s, PgOk m s → PgOk m' s) ∧
    (∀ pg, E.contains m pid pg = some false → E.contains m' pid pg = some false)
  alloc_ok : ∀ m pid pg, E.contains m pid pg = some false → PgOk m pg →
    extra2 m → ∃ m', E.allocate m pid pg = some m'
  alloc_facts : ∀ m pid pg m', E.allocate m pid pg = some m' →
    E.contains m pid pg = some false → PgOk m pg →
    (∃ n, psz m pid = some n ∧ psz m' pid = some (n + 1)) ∧
    (∀ q, q ≠ pid → psz m' q = psz m q) ∧
    residents m' = residents m + 1 ∧ sizeN m' = sizeN m ∧
    (extra2 m → extra m') ∧ (∀ s, PgOk m s → PgOk m' s)

/-- Behavioural facts shared by the four global-scope engines. -/
structure GlobalSpec {σ : Type} (E : Engine σ) (residents sizeN : σ → Nat)
    (extra extra2 : σ → Prop) (PgOk : σ → String → Prop) : Prop where
  is_free_def : ∀ m, E.is_free m = decide (residents m < sizeN m)
  tick_res : ∀ m, residents (E.tick m) = residents m
  tick_size : ∀ m, sizeN (E.tick m) = sizeN m
  tick_extra : ∀ m, extra m → extra2 (E.tick m)
  tick_pgok : ∀ m pg, PgOk m pg → PgOk (E.tick m) pg
  contains_some : ∀ m pid pg, E.contains m pid pg ≠ none
  contains_true_use : ∀ m pid pg, E.contains m pid pg = some true →
    ∃ m', E.use m pid pg = UseRes.ok m'
  use_no_err : ∀ m pid pg, E.use m pid pg ≠ UseRes.err
  use_fault_contains : ∀ m pid pg, E.use m pid pg = UseRes.fault →
    E.contains m pid pg = some false
  use_ok_facts : ∀ m pid pg m', E.use m pid pg = UseRes.ok m' →
    residents m' = residents m ∧ sizeN m' = sizeN m ∧
    (extra2 m → extra m') ∧ (∀ s, PgOk m s → PgOk m' s)
  swap_ok : ∀ m pid, 1 ≤ residents m → extra2 m →
    ∃ v m', E.swap m pid = some (v, m')
  swap_facts : ∀ m pid v m', E.swap m pid = some (v, m') →
    residents m' + 1 = residents m ∧ sizeN m' = sizeN m ∧
    (extra2 m → extra2 m') ∧ (∀ s, PgOk m s → PgOk m' s) ∧
    (∀ pg, E.contains m pid pg = some false → E.contains m' pid pg = some false)
  alloc_ok : ∀ m pid pg, E.contains m pid pg = some false → PgOk m pg →
    extra2 m → ∃ m', E.allocate m pid pg = some m'
  alloc_facts : ∀ m pid pg m', E.allocate m pid pg = some m' →
    E.contains m pid pg = some false → PgOk m pg →
    residents m' = residents m + 1 ∧ sizeN m' = sizeN m ∧
    (extra2 m → extra m') ∧ (∀ s, PgOk m s → PgOk m' s)

/-- The loop invariant for a local-scope engine: round-robin alignment, pid
coverage, nonemptiness of every consuming process's partition, the resident
count bounded by the number of consumed references, enough capacity for one
page per process, plus the engine-specific `extra`. -/
def MidLocal {σ : Type} (psz : σ → String → Option Nat)
    (residents sizeN : σ → Nat) (extra : σ → Prop) (PgOk : σ → String → Prop)
    (done todo : List (MemoryAccessor × Bool)) (mem : σ) : Prop :=
  ∃ c, Aligned c done todo ∧
    (∀ e ∈ done ++ todo, (psz mem e.1.pid).isSome = true) ∧
    (∀ e ∈ done ++ todo, 1 ≤ consumed e.1 → ∀ n, psz mem e.1.pid = some n → 1 ≤ n) ∧
    residents mem ≤ consumedSum (done ++ todo) ∧
    (done ++ todo).length ≤ sizeN mem ∧
    extra mem ∧
    (∀ e ∈ done ++ todo, ∀ s ∈ e.1.accesses, PgOk mem s)

/-- The loop invariant for a global-scope engine. -/
def MidGlobal {σ : Type} (sizeN : σ → Nat) (extra : σ → Prop)
    (PgOk : σ → String → Prop)
    (done todo : List (MemoryAccessor × Bool)) (mem : σ) : Prop :=
  1 ≤ sizeN mem ∧ extra mem ∧
  (∀ e ∈ done ++ todo, ∀ s ∈ e.1.accesses, PgOk mem s)

/-! ## Dictionary lemmas -/

theorem dictGet_dictSet_self {β : Type} (d : Dict β) (k : String) (v : β) :
    dictGet (dictSet d k v) k = some v := by
  induction d with
  | nil => simp [dictGet, dictSet]
  | cons p rest ih =>
    by_cases h : p.1 = k
    · simp [dictSet, h, dictGet]
    · simp [dictSet, h, dictGet, ih]

theorem dictGet_dictSet_ne {β : Type} (d : Dict β) {q k : String} (v : β)
    (h : q ≠ k) : dictGet (dictSet d k v) q = dictGet d q := by
  induction d with
  | nil => simp [dictGet, dictSet, Ne.symm h]
  | cons p rest ih =>
    by_cases hp : p.1 = k
    · have hq : ¬ (p.1 = q) := by rw [hp]; exact Ne.symm h
      simp [dictSet, hp, dictGet, Ne.symm h, hq]
    · simp only [dictSet, hp, if_false, dictGet, ih]

theorem dictGet_mem {β : Type} {d : Dict β} {k : String} {v : β}
    (h : dictGet d k = some v) : (k, v) ∈ d := by
  induction d with
  | nil => simp [dictGet] at h
  | cons p rest ih =>
    obtain ⟨p1, p2⟩ := p
    by_cases hp : p1 = k
    · subst hp
      simp [dictGet] at h
      subst h
      exact List.mem_cons_self _ _
    · simp only [dictGet, hp, if_false] at h
      exact List.mem_cons_of_mem _ (ih h)

theorem mem_dictKeys_of_dictGet {β : Type} {d : Dict β} {k : String} {v : β}
    (h : dictGet d k = some v) : k ∈ dictKeys d := by
  have := dictGet_mem h
  exact List.mem_map.2 ⟨(k, v), this, rfl⟩

theorem dictGet_isSome_of_mem_keys {β : Type} {d : Dict β} {k : String}
    (h : k ∈ dictKeys d) : (dictGet d k).isSome = true := by
  induction d with
  | nil => simp [dictKeys] at h
  | cons p rest ih =>
    by_cases hp : p.1 = k
    · simp [dictGet, hp]
    · simp only [dictKeys, List.map_cons, List.mem_cons] at h
      rcases h with h | h
      · exact absurd h.symm hp
      · simp only [dictGet, hp, if_false]
        exact ih h

theorem dictGet_none_of_not_mem_keys {β : Type} {d : Dict β} {k : String}
    (h : k ∉ dictKeys d) : dictGet d k = none := by
  cases hg : dictGet d k with
  | none => rfl
  | some v => exact absurd (mem_dictKeys_of_dictGet hg) h

theorem length_dictSet_some {β : Type} {d : Dict β} {k : String} {w : β}
    (v : β) (h : dictGet d k = some w) :
    (dictSet d k v).length = d.length := by
  induction d with
  | nil => simp [dictGet] at h
  | cons p rest ih =>
    by_cases hp : p.1 = k
    · simp [dictSet, hp]
    · simp only [dictGet, hp, if_false] at h
      simp [dictSet, hp, ih h]

theorem length_dictSet_none {β : Type} {d : Dict β} {k : String}
    (v : β) (h : dictGet d k = none) :
    (dictSet d k v).length = d.length + 1 := by
  induction d with
  | nil => simp [dictSet]
  | cons p rest ih =>
    by_cases hp : p.1 = k
    · simp [dictGet, hp] at h
    · simp only [dictGet, hp, if_false] at h
      simp [dictSet, hp, ih h]

theorem dictGet_dictDel_ne {β : Type} (d : Dict β) {q k : String}
    (h : q ≠ k) : dictGet (dictDel d k) q = dictGet d q := by
  induction d with
  | nil => simp [dictDel]
  | cons p rest ih =>
    by_cases hp : p.1 = k
    · have hq : ¬ (p.1 = q) := by rw [hp]; exact Ne.symm h
      simp [dictDel, hp, dictGet, hq, Ne.symm h]
    · simp only [dictDel, hp, if_false, dictGet, ih]

theorem length_dictDel {β : Type} {d : Dict β} {k : String} {v : β}
    (h : dictGet d k = some v) : (dictDel d k).length + 1 = d.length := by
  induction d with
  | nil => simp [dictGet] at h
  | cons p rest ih =>
    by_cases hp : p.1 = k
    · simp [dictDel, hp]
    · simp only [dictGet, hp, if_false] at h
      simp [dictDel, hp, ih h]

theorem dictKeys_dictDel_sub {β : Type} {d : Dict β} {q k : String}
    (h : q ∈ dictKeys (dictDel d k)) : q ∈ dictKeys d := by
  induction d with
  | nil => simpa [dictDel] using h
  | cons p rest ih =>
    by_cases hp : p.1 = k
    · simp only [dictDel, hp, if_true] at h
      simp [dictKeys, List.mem_cons]
      right
      simpa [dictKeys] using h
    · simp only [dictDel, hp, if_false, dictKeys, List.map_cons, List.mem_cons] at h
      rcases h with h | h
      · simp [dictKeys, h]
      · simp only [dictKeys, List.map_cons, List.mem_cons]
        exact Or.inr (ih h)

theorem mem_dictKeys_dictSet {β : Type} (d : Dict β) (k q : String) (v : β) :
    q ∈ dictKeys (dictSet d k v) ↔ q ∈ dictKeys d ∨ q = k := by
  induction d with
  | nil => simp [dictSet, dictKeys]
  | cons p rest ih =>
    by_cases hp : p.1 = k
    · subst hp
      have hset : dictSet (p :: rest) p.1 v = (p.1, v) :: rest := by
        simp [dictSet]
      rw [hset]
      simp only [dictKeys, List.map_cons, List.mem_cons]
      tauto
    · simp only [dictSet, hp, if_false, dictKeys, List.map_cons, List.mem_cons] at ih ⊢
      tauto

theorem dictGet_map_val {β γ : Type} (d : Dict β) (f : β → γ) (k : String) :
    dictGet (d.map (fun p => (p.1, f p.2))) k = (dictGet d k).map f := by
  induction d with
  | nil => simp [dictGet]
  | cons p rest ih =>
    by_cases hp : p.1 = k
    · simp [dictGet, hp]
    · simp [dictGet, hp, ih]

theorem localSum_dictSet {π : Type} (plen : π → Nat) (d : Dict π)
    {k : String} {old : π} (v : π) (h : dictGet d k = some old) :
    localSum plen (dictSet d k v) + plen old = localSum plen d + plen v := by
  induction d with
  | nil => simp [dictGet] at h
  | cons p rest ih =>
    by_cases hp : p.1 = k
    · simp only [dictGet, hp, if_true, Option.some.injEq] at h
      subst h
      simp [dictSet, hp, localSum]
      omega
    · simp only [dictGet, hp, if_false] at h
      have := ih h
      simp only [dictSet, hp, if_false, localSum, List.map_cons, List.sum_cons]
      simp only [localSum] at this
      omega

theorem localSum_map_val {π ρ : Type} (plen : ρ → Nat) (g : π → ρ)
    (d : Dict π) :
    localSum plen (d.map (fun p => (p.1, g p.2))) =
      localSum (fun x => plen (g x)) d := by
  induction d with
  | nil => simp [localSum]
  | cons p rest ih => simp [localSum, List.map_cons, List.sum_cons] at ih ⊢; omega

/-! ## Set and extremum lemmas -/

theorem mem_setAdd_iff (s : List String) (x y : String) :
    y ∈ setAdd s x ↔ y ∈ s ∨ y = x := by
  by_cases h : x ∈ s
  · simp only [setAdd, h, if_true]
    constructor
    · exact Or.inl
    · rintro (hy | hy)
      · exact hy
      · exact hy ▸ h
  · simp [setAdd, h, List.mem_append]

theorem length_setAdd_of_not_mem {s : List String} {x : String} (h : x ∉ s) :
    (setAdd s x).length = s.length + 1 := by
  simp [setAdd, h]

theorem pyExtreme_eq_none_iff {α : Type} (better : α → α → Bool) (l : List α) :
    pyExtreme better l = none ↔ l = [] := by
  cases l <;> simp [pyExtreme]

theorem pyExtreme_foldl_mem {α : Type} (better : α → α → Bool) :
    ∀ (ys : List α) (a : α),
      ys.foldl (fun acc y => if better acc y then y else acc) a = a ∨
      ys.foldl (fun acc y => if better acc y then y else acc) a ∈ ys := by
  intro ys
  induction ys with
  | nil => intro a; exact Or.inl rfl
  | cons y ys ih =>
    intro a
    simp only [List.foldl_cons]
    by_cases hb : better a y
    · simp only [hb, if_true]
      rcases ih y with h | h
      · exact Or.inr (List.mem_cons.2 (Or.inl h))
      · exact Or.inr (List.mem_cons.2 (Or.inr h))
    · simp only [hb, if_neg, Bool.false_eq_true, if_false]
      rcases ih a with h | h
      · exact Or.inl h
      · exact Or.inr (List.mem_cons.2 (Or.inr h))

theorem pyExtreme_mem {α : Type} {better : α → α → Bool} {l : List α} {r : α}
    (h : pyExtreme better l = some r) : r ∈ l := by
  cases l with
  | nil => simp [pyExtreme] at h
  | cons x xs =>
    simp only [pyExtreme, Option.some.injEq] at h
    subst h
    rcases pyExtreme_foldl_mem better xs x with h | h
    · exact List.mem_cons.2 (Or.inl h)
    · exact List.mem_cons.2 (Or.inr h)

/-- Python's `max`/`min` returns an element no other element strictly beats,
for any "strictly beats" relation behaving like a strict weak order. -/
theorem pyExtreme_best {α : Type} {better : α → α → Bool} {l : List α} {r : α}
    (hirr : ∀ a, better a a = false)
    (h2 : ∀ r y a, better r y = false → better a y = true → better r a = false)
    (h3 : ∀ r a y, better r a = false → better a y = false → better r y = false)
    (h : pyExtreme better l = some r) : ∀ p ∈ l, better r p = false := by
  cases l with
  | nil => simp [pyExtreme] at h
  | cons x xs =>
    simp only [pyExtreme, Option.some.injEq] at h
    subst h
    have key : ∀ (ys : List α) (a : α),
        better (ys.foldl (fun acc y => if better acc y then y else acc) a) a = false ∧
        ∀ p ∈ ys,
          better (ys.foldl (fun acc y => if better acc y then y else acc) a) p = false := by
      intro ys
      induction ys with
      | nil => intro a; exact ⟨hirr a, by simp⟩
      | cons y ys ih =>
        intro a
        simp only [List.foldl_cons]
        by_cases hb : better a y
        · simp only [hb, if_true]
          obtain ⟨hy, hall⟩ := ih y
          refine ⟨h2 _ _ _ hy hb, ?_⟩
          intro p hp
          rcases List.mem_cons.1 hp with hp | hp
          · exact hp ▸ hy
          · exact hall p hp
        · simp only [hb, Bool.false_eq_true, if_false]
          obtain ⟨ha, hall⟩ := ih a
          refine ⟨ha, ?_⟩
          intro p hp
          rcases List.mem_cons.1 hp with hp | hp
          · exact hp ▸ h3 _ _ _ ha (by simpa using hb)
          · exact hall p hp
    intro p hp
    rcases List.mem_cons.1 hp with hp | hp
    · exact hp ▸ (key xs x).1
    · exact (key xs x).2 p hp

/-! ## Accessor lemmas -/

theorem nextIter_pid (a : MemoryAccessor) (k : Nat) :
    (a.nextIter k).pid = a.pid := by
  induction k with
  | zero => rfl
  | succ k ih => simp [MemoryAccessor.nextIter, MemoryAccessor.next, ih]

theorem nextIter_accesses (a : MemoryAccessor) (k : Nat) :
    (a.nextIter k).accesses = a.accesses := by
  induction k with
  | zero => rfl
  | succ k ih => simp [MemoryAccessor.nextIter, MemoryAccessor.next, ih]

theorem nextIter_calls (a : MemoryAccessor) (k : Nat) :
    (a.nextIter k).calls = a.calls + k := by
  induction k with
  | zero => rfl
  | succ k ih => simp [MemoryAccessor.nextIter, MemoryAccessor.next, ih]; omega

/-! ## Unfolding lemmas for the driver -/

theorem runPass_nil {σ : Type} (E : Engine σ) (mem : σ) (f : Nat)
    (tr : List TraceEntry) : runPass E [] mem f tr = some ([], mem, f, tr) := rfl

theorem runPass_cons_fin {σ : Type} (E : Engine σ) (a : MemoryAccessor)
    (rest : List (MemoryAccessor × Bool)) (mem : σ) (f : Nat)
    (tr : List TraceEntry) :
    runPass E ((a, true) :: rest) mem f tr =
      (runPass E rest mem f tr).map (fun r => ((a, true) :: r.1, r.2)) := by
  simp [runPass]

theorem runPass_cons_retire {σ : Type} (E : Engine σ) {a : MemoryAccessor}
    (rest : List (MemoryAccessor × Bool)) (mem : σ) (f : Nat)
    (tr : List TraceEntry) (h : a.accesses.get? a.calls = none) :
    runPass E ((a, false) :: rest) mem f tr =
      (runPass E rest mem f tr).map
        (fun r => (({ a with calls := a.calls + 1 }, true) :: r.1, r.2)) := by
  have hn : a.next = ({ a with calls := a.calls + 1 }, (none : Option String)) := by
    simp only [MemoryAccessor.next]
    rw [h]
  simp [runPass, hn]

theorem runPass_cons_step_none {σ : Type} (E : Engine σ) {a : MemoryAccessor}
    {page : String} (rest : List (MemoryAccessor × Bool)) (mem : σ) (f : Nat)
    (tr : List TraceEntry) (h : a.accesses.get? a.calls = some page)
    (hs : stepRef E mem a.pid page = none) :
    runPass E ((a, false) :: rest) mem f tr = none := by
  have hn : a.next = ({ a with calls := a.calls + 1 }, some page) := by
    simp only [MemoryAccessor.next]
    rw [h]
  simp [runPass, hn, hs]

theorem runPass_cons_step_some {σ : Type} (E : Engine σ) {a : MemoryAccessor}
    {page : String} (rest : List (MemoryAccessor × Bool)) (mem : σ) (f : Nat)
    (tr : List TraceEntry) {m' : σ} {o : Outcome} {d : Nat}
    (h : a.accesses.get? a.calls = some page)
    (hs : stepRef E mem a.pid page = some (m', o, d)) :
    runPass E ((a, false) :: rest) mem f tr =
      (runPass E rest m' (f + d) (tr ++ [(a.pid, page, o)])).map
        (fun r => (({ a with calls := a.calls + 1 }, false) :: r.1, r.2)) := by
  have hn : a.next = ({ a with calls := a.calls + 1 }, some page) := by
    simp only [MemoryAccessor.next]
    rw [h]
  simp [runPass, hn, hs]

theorem simLoopFuel_done {σ : Type} (E : Engine σ) (fuel : Nat) {s : SimState σ}
    (h : s.accs.all (fun e => e.2) = true) :
    simLoopFuel E fuel s = SimResult.ok s.faults s.trace s.mem := by
  rw [simLoopFuel.eq_def]
  simp [h]

theorem simLoopFuel_zero {σ : Type} (E : Engine σ) {s : SimState σ}
    (h : ¬ s.accs.all (fun e => e.2) = true) :
    simLoopFuel E 0 s = SimResult.outOfFuel := by
  rw [simLoopFuel.eq_def]
  simp [h]

theorem simLoopFuel_succ_none {σ : Type} (E : Engine σ) (fuel : Nat)
    {s : SimState σ} (h : ¬ s.accs.all (fun e => e.2) = true)
    (hr : runPass E s.accs s.mem s.faults s.trace = none) :
    simLoopFuel E (fuel + 1) s = SimResult.engineError := by
  rw [simLoopFuel.eq_def]
  simp [h, hr]

theorem simLoopFuel_succ_some {σ : Type} (E : Engine σ) (fuel : Nat)
    {s : SimState σ} {accs' : List (MemoryAccessor × Bool)} {m' : σ} {f' : Nat}
    {tr' : List TraceEntry} (h : ¬ s.accs.all (fun e => e.2) = true)
    (hr : runPass E s.accs s.mem s.faults s.trace = some (accs', m', f', tr')) :
    simLoopFuel E (fuel + 1) s = simLoopFuel E fuel ⟨accs', m', f', tr'⟩ := by
  rw [simLoopFuel.eq_def]
  simp [h, hr]

/-! ## Termination of the round-robin loop -/

theorem runPass_measure {σ : Type} (E : Engine σ) :
    ∀ (todo : List (MemoryAccessor × Bool)) (mem : σ) (f : Nat)
      (tr : List TraceEntry) accs' m' f' tr',
      runPass E todo mem f tr = some (accs', m', f', tr') →
      (passMeasure accs' ≤ passMeasure todo ∧
        ((∃ e ∈ todo, e.2 = false) → passMeasure accs' < passMeasure todo)) := by
  intro todo
  induction todo with
  | nil =>
    intro mem f tr accs' m' f' tr' h
    rw [runPass_nil] at h
    simp only [Option.some.injEq, Prod.mk.injEq] at h
    obtain ⟨rfl, rfl, rfl, rfl⟩ := h
    refine ⟨le_refl _, ?_⟩
    rintro ⟨e, he, _⟩
    simp at he
  | cons e rest ih =>
    obtain ⟨a, fin⟩ := e
    intro mem f tr accs' m' f' tr' h
    cases fin with
    | true =>
      rw [runPass_cons_fin] at h
      cases hr : runPass E rest mem f tr with
      | none => rw [hr] at h; simp at h
      | some r =>
        obtain ⟨racc, rm, rf, rtr⟩ := r
        rw [hr] at h
        simp only [Option.map_some', Option.some.injEq, Prod.mk.injEq] at h
        obtain ⟨rfl, rfl, rfl, rfl⟩ := h
        have := ih mem f tr racc rm rf rtr hr
        constructor
        · simp only [passMeasure, List.map_cons, List.sum_cons]
          have : passMeasure racc ≤ passMeasure rest := this.1
          simp only [passMeasure] at this
          omega
        · rintro ⟨e, he, hef⟩
          rcases List.mem_cons.1 he with he | he
          · rw [he] at hef; simp at hef
          · have hlt := this.2 ⟨e, he, hef⟩
            simp only [passMeasure, List.map_cons, List.sum_cons] at hlt ⊢
            omega
    | false =>
      cases hget : a.accesses.get? a.calls with
      | none =>
        rw [runPass_cons_retire E rest mem f tr hget] at h
        cases hr : runPass E rest mem f tr with
        | none => rw [hr] at h; simp at h
        | some r =>
          obtain ⟨racc, rm, rf, rtr⟩ := r
          rw [hr] at h
          simp only [Option.map_some', Option.some.injEq, Prod.mk.injEq] at h
          obtain ⟨rfl, rfl, rfl, rfl⟩ := h
          have hrec := ih mem f tr racc rm rf rtr hr
          have hw : accWeight (a, false) = (a.accesses.length + 1 - a.calls) + 1 := rfl
          constructor <;>
            simp only [passMeasure, List.map_cons, List.sum_cons, accWeight] at hrec ⊢ <;>
            omega
      | some page =>
        cases hs : stepRef E mem a.pid page with
        | none => rw [runPass_cons_step_none E rest mem f tr hget hs] at h; simp at h
        | some t =>
          obtain ⟨m2, o, d⟩ := t
          rw [runPass_cons_step_some E rest mem f tr hget hs] at h
          cases hr : runPass E rest m2 (f + d) (tr ++ [(a.pid, page, o)]) with
          | none => rw [hr] at h; simp at h
          | some r =>
            obtain ⟨racc, rm, rf, rtr⟩ := r
            rw [hr] at h
            simp only [Option.map_some', Option.some.injEq, Prod.mk.injEq] at h
            obtain ⟨rfl, rfl, rfl, rfl⟩ := h
            have hrec := ih m2 (f + d) (tr ++ [(a.pid, page, o)]) racc rm rf rtr hr
            have hcl : a.calls < a.accesses.length := by
              by_contra hnot
              rw [List.get?_eq_none.2 (by omega)] at hget
              exact absurd hget (by simp)
            constructor <;>
              simp only [passMeasure, List.map_cons, List.sum_cons, accWeight] at hrec ⊢ <;>
              omega

theorem not_all_fin {l : List (MemoryAccessor × Bool)}
    (h : ¬ l.all (fun e => e.2) = true) : ∃ e ∈ l, e.2 = false := by
  rw [List.all_eq_true] at h
  push_neg at h
  obtain ⟨e, he, hef⟩ := h
  exact ⟨e, he, by simpa using hef⟩

theorem passMeasure_pos {l : List (MemoryAccessor × Bool)}
    (h : ∃ e ∈ l, e.2 = false) : 1 ≤ passMeasure l := by
  obtain ⟨e, he, hef⟩ := h
  obtain ⟨a, fin⟩ := e
  cases fin with
  | true => simp at hef
  | false =>
    have hw : accWeight (a, false) ∈ l.map accWeight := List.mem_map.2 ⟨_, he, rfl⟩
    have := List.single_le_sum (fun (x : Nat) _ => Nat.zero_le x) _ hw
    have hge : 1 ≤ accWeight (a, false) := by simp [accWeight]
    exact le_trans hge this

/-- With fuel at least the pass measure, the loop never runs out of fuel:
every pass over a state with an unfinished accessor strictly decreases the
measure. -/
theorem simLoopFuel_no_outOfFuel {σ : Type} (E : Engine σ) :
    ∀ (fuel : Nat) (s : SimState σ), passMeasure s.accs ≤ fuel →
      simLoopFuel E fuel s ≠ SimResult.outOfFuel := by
  intro fuel
  induction fuel with
  | zero =>
    intro s hm
    by_cases hall : s.accs.all (fun e => e.2) = true
    · rw [simLoopFuel_done E 0 hall]; simp
    · have := passMeasure_pos (not_all_fin hall)
      omega
  | succ fuel ih =>
    intro s hm
    by_cases hall : s.accs.all (fun e => e.2) = true
    · rw [simLoopFuel_done E (fuel + 1) hall]; simp
    · cases hr : runPass E s.accs s.mem s.faults s.trace with
      | none => rw [simLoopFuel_succ_none E fuel hall hr]; simp
      | some r =>
        obtain ⟨accs', m', f', tr'⟩ := r
        rw [simLoopFuel_succ_some E fuel hall hr]
        have hdec := (runPass_measure E s.accs s.mem s.faults s.trace
          accs' m' f' tr' hr).2 (not_all_fin hall)
        have hle : passMeasure accs' ≤ fuel := by omega
        exact ih ⟨accs', m', f', tr'⟩ hle

/-! ## Generic soundness of a pass under a loop invariant -/

theorem runPass_sound {σ : Type} (E : Engine σ)
    (Mid : List (MemoryAccessor × Bool) → List (MemoryAccessor × Bool) → σ → Prop)
    (hskip : ∀ done a todo mem, Mid done ((a, true) :: todo) mem →
      Mid (done ++ [(a, true)]) todo mem)
    (hretire : ∀ done a todo mem, Mid done ((a, false) :: todo) mem →
      a.accesses.get? a.calls = none →
      Mid (done ++ [({ a with calls := a.calls + 1 }, true)]) todo mem)
    (hstep : ∀ done a todo mem page, Mid done ((a, false) :: todo) mem →
      a.accesses.get? a.calls = some page →
      ∃ m' o d, stepRef E mem a.pid page = some (m', o, d) ∧
        Mid (done ++ [({ a with calls := a.calls + 1 }, false)]) todo m') :
    ∀ (todo done : List (MemoryAccessor × Bool)) (mem : σ) (f : Nat)
      (tr : List TraceEntry), Mid done todo mem →
      ∃ accs' m' f' tr', runPass E todo mem f tr = some (accs', m', f', tr') ∧
        Mid (done ++ accs') [] m' := by
  intro todo
  induction todo with
  | nil =>
    intro done mem f tr hmid
    exact ⟨[], mem, f, tr, runPass_nil E mem f tr, by simpa using hmid⟩
  | cons e rest ih =>
    obtain ⟨a, fin⟩ := e
    intro done mem f tr hmid
    cases fin with
    | true =>
      obtain ⟨accs', m', f', tr', hrp, hmid'⟩ :=
        ih (done ++ [(a, true)]) mem f tr (hskip done a rest mem hmid)
      refine ⟨(a, true) :: accs', m', f', tr', ?_, ?_⟩
      · rw [runPass_cons_fin, hrp]; rfl
      · simpa [List.append_assoc] using hmid'
    | false =>
      cases hget : a.accesses.get? a.calls with
      | none =>
        obtain ⟨accs', m', f', tr', hrp, hmid'⟩ :=
          ih (done ++ [({ a with calls := a.calls + 1 }, true)]) mem f tr
            (hretire done a rest mem hmid hget)
        refine ⟨({ a with calls := a.calls + 1 }, true) :: accs', m', f', tr', ?_, ?_⟩
        · rw [runPass_cons_retire E rest mem f tr hget, hrp]; rfl
        · simpa [List.append_assoc] using hmid'
      | some page =>
        obtain ⟨m2, o, d, hs, hmid2⟩ := hstep done a rest mem page hmid hget
        obtain ⟨accs', m', f', tr', hrp, hmid'⟩ :=
          ih (done ++ [({ a with calls := a.calls + 1 }, false)]) m2 (f + d)
            (tr ++ [(a.pid, page, o)]) hmid2
        refine ⟨({ a with calls := a.calls + 1 }, false) :: accs', m', f', tr', ?_, ?_⟩
        · rw [runPass_cons_step_some E rest mem f tr hget hs, hrp]; rfl
        · simpa [List.append_assoc] using hmid'

/-- Generic absence of engine errors: if the invariant survives skips,
retirements and steps, and is re-established at the start of each pass, the
loop never reports an engine error. -/
theorem simLoop_no_error {σ : Type} (E : Engine σ)
    (Mid : List (MemoryAccessor × Bool) → List (MemoryAccessor × Bool) → σ → Prop)
    (hskip : ∀ done a todo mem, Mid done ((a, true) :: todo) mem →
      Mid (done ++ [(a, true)]) todo mem)
    (hretire : ∀ done a todo mem, Mid done ((a, false) :: todo) mem →
      a.accesses.get? a.calls = none →
      Mid (done ++ [({ a with calls := a.calls + 1 }, true)]) todo mem)
    (hstep : ∀ done a todo mem page, Mid done ((a, false) :: todo) mem →
      a.accesses.get? a.calls = some page →
      ∃ m' o d, stepRef E mem a.pid page = some (m', o, d) ∧
        Mid (done ++ [({ a with calls := a.calls + 1 }, false)]) todo m')
    (hrestart : ∀ accs mem, Mid accs [] mem → Mid [] accs mem) :
    ∀ (fuel : Nat) (s : SimState σ), Mid [] s.accs s.mem →
      simLoopFuel E fuel s ≠ SimResult.engineError := by
  intro fuel
  induction fuel with
  | zero =>
    intro s hmid
    by_cases hall : s.accs.all (fun e => e.2) = true
    · rw [simLoopFuel_done E 0 hall]; simp
    · rw [simLoopFuel_zero E hall]; simp
  | succ fuel ih =>
    intro s hmid
    by_cases hall : s.accs.all (fun e => e.2) = true
    · rw [simLoopFuel_done E (fuel + 1) hall]; simp
    · obtain ⟨accs', m', f', tr', hrp, hmid'⟩ :=
        runPass_sound E Mid hskip hretire hstep s.accs [] s.mem s.faults s.trace hmid
      rw [simLoopFuel_succ_some E fuel hall (by simpa using hrp)]
      exact ih ⟨accs', m', f', tr'⟩ (hrestart accs' m' (by simpa using hmid'))

/-! ## Case analysis of one simulate step -/

theorem stepRef_cases {σ : Type} (E : Engine σ) (mem : σ) (pid pg : String)
    (m' : σ) (o : Outcome) (d : Nat)
    (h : stepRef E mem pid pg = some (m', o, d)) :
    (E.is_free (E.tick mem) = true ∧ E.contains (E.tick mem) pid pg = some false ∧
      E.allocate (E.tick mem) pid pg = some m' ∧ o = Outcome.allocation ∧ d = 0) ∨
    ((E.is_free (E.tick mem) = false ∨ E.contains (E.tick mem) pid pg = some true) ∧
      ((E.use (E.tick mem) pid pg = UseRes.ok m' ∧ o = Outcome.hit ∧ d = 0) ∨
       (E.use (E.tick mem) pid pg = UseRes.fault ∧
        ∃ v m2, E.swap (E.tick mem) pid = some (v, m2) ∧
          E.allocate m2 pid pg = some m' ∧ o = Outcome.fault v ∧ d = 1))) := by
  simp only [stepRef, usePath] at h
  split at h
  next hf =>
    split at h
    next hc => exact absurd h (by simp)
    next hc =>
      split at h
      next hu =>
        simp only [Option.some.injEq, Prod.mk.injEq] at h
        obtain ⟨rfl, rfl, rfl⟩ := h
        exact Or.inr ⟨Or.inr hc, Or.inl ⟨hu, rfl, rfl⟩⟩
      next hu => exact absurd h (by simp)
      next hu =>
        split at h
        next hs => exact absurd h (by simp)
        next v m2 hs =>
          split at h
          next ha => exact absurd h (by simp)
          next m3 ha =>
            simp only [Option.some.injEq, Prod.mk.injEq] at h
            obtain ⟨rfl, rfl, rfl⟩ := h
            exact Or.inr ⟨Or.inr hc, Or.inr ⟨hu, v, m2, hs, ha, rfl, rfl⟩⟩
    next hc =>
      split at h
      next ha => exact absurd h (by simp)
      next m2 ha =>
        simp only [Option.some.injEq, Prod.mk.injEq] at h
        obtain ⟨rfl, rfl, rfl⟩ := h
        exact Or.inl ⟨hf, hc, ha, rfl, rfl⟩
  next hf =>
    have hf' : E.is_free (E.tick mem) = false := by
      cases hb : E.is_free (E.tick mem) with
      | false => rfl
      | true => exact absurd hb hf
    split at h
    next hu =>
      simp only [Option.some.injEq, Prod.mk.injEq] at h
      obtain ⟨rfl, rfl, rfl⟩ := h
      exact Or.inr ⟨Or.inl hf', Or.inl ⟨hu, rfl, rfl⟩⟩
    next hu => exact absurd h (by simp)
    next hu =>
      split at h
      next hs => exact absurd h (by simp)
      next v m2 hs =>
        split at h
        next ha => exact absurd h (by simp)
        next m3 ha =>
          simp only [Option.some.injEq, Prod.mk.injEq] at h
          obtain ⟨rfl, rfl, rfl⟩ := h
          exact Or.inr ⟨Or.inl hf', Or.inr ⟨hu, v, m2, hs, ha, rfl, rfl⟩⟩

theorem stepRef_eq_alloc {σ : Type} (E : Engine σ) {mem m2 : σ} {pid pg : String}
    (hf : E.is_free (E.tick mem) = true)
    (hc : E.contains (E.tick mem) pid pg = some false)
    (ha : E.allocate (E.tick mem) pid pg = some m2) :
    stepRef E mem pid pg = some (m2, Outcome.allocation, 0) := by
  simp [stepRef, hf, hc, ha]

theorem stepRef_eq_hit_free {σ : Type} (E : Engine σ) {mem m2 : σ} {pid pg : String}
    (hf : E.is_free (E.tick mem) = true)
    (hc : E.contains (E.tick mem) pid pg = some true)
    (hu : E.use (E.tick mem) pid pg = UseRes.ok m2) :
    stepRef E mem pid pg = some (m2, Outcome.hit, 0) := by
  simp [stepRef, hf, hc, usePath, hu]

theorem stepRef_eq_hit_full {σ : Type} (E : Engine σ) {mem m2 : σ} {pid pg : String}
    (hf : E.is_free (E.tick mem) = false)
    (hu : E.use (E.tick mem) pid pg = UseRes.ok m2) :
    stepRef E mem pid pg = some (m2, Outcome.hit, 0) := by
  simp [stepRef, hf, usePath, hu]

theorem stepRef_eq_fault_full {σ : Type} (E : Engine σ) {mem m2 m3 : σ}
    {pid pg v : String}
    (hf : E.is_free (E.tick mem) = false)
    (hu : E.use (E.tick mem) pid pg = UseRes.fault)
    (hs : E.swap (E.tick mem) pid = some (v, m2))
    (ha : E.allocate m2 pid pg = some m3) :
    stepRef E mem pid pg = some (m3, Outcome.fault v, 1) := by
  simp [stepRef, hf, usePath, hu, hs, ha]

/-! ## Generic step-level consequences -/

/-- Capacity preservation of one step, from op-level facts. -/
theorem stepRef_capacity {σ : Type} (E : Engine σ) (residents sizeN : σ → Nat)
    (hfree : ∀ m, E.is_free m = decide (residents m < sizeN m))
    (htick_res : ∀ m, residents (E.tick m) = residents m)
    (htick_size : ∀ m, sizeN (E.tick m) = sizeN m)
    (huse : ∀ m pid pg m', E.use m pid pg = UseRes.ok m' →
      residents m' = residents m ∧ sizeN m' = sizeN m)
    (hufc : ∀ m pid pg, E.use m pid pg = UseRes.fault →
      E.contains m pid pg = some false)
    (hswap : ∀ m pid v m', E.swap m pid = some (v, m') →
      residents m' + 1 = residents m ∧ sizeN m' = sizeN m ∧
      ∀ pg, E.contains m pid pg = some false → E.contains m' pid pg = some false)
    (halloc : ∀ m pid pg m', E.allocate m pid pg = some m' →
      E.contains m pid pg = some false →
      residents m' = residents m + 1 ∧ sizeN m' = sizeN m)
    {mem m' : σ} {pid pg : String} {o : Outcome} {d : Nat}
    (h : stepRef E mem pid pg = some (m', o, d))
    (hinv : residents mem ≤ sizeN mem) :
    residents m' ≤ sizeN m' ∧ sizeN m' = sizeN mem := by
  rcases stepRef_cases E mem pid pg m' o d h with
    ⟨hf, hc, ha, _, _⟩ | ⟨hor, ⟨hu, _, _⟩ | ⟨hu, v, m2, hs, ha, _, _⟩⟩
  · have hlt : residents (E.tick mem) < sizeN (E.tick mem) := by
      have := hfree (E.tick mem)
      rw [hf] at this
      exact of_decide_eq_true this.symm
    obtain ⟨hr, hsz⟩ := halloc _ _ _ _ ha hc
    rw [htick_res, htick_size] at hlt
    rw [htick_res] at hr
    rw [htick_size] at hsz
    omega
  · obtain ⟨hr, hsz⟩ := huse _ _ _ _ hu
    rw [htick_res] at hr
    rw [htick_size] at hsz
    omega
  · have hc1 := hufc _ _ _ hu
    obtain ⟨hr2, hsz2, hcp⟩ := hswap _ _ _ _ hs
    obtain ⟨hr3, hsz3⟩ := halloc _ _ _ _ ha (hcp pg hc1)
    rw [htick_res] at hr2
    rw [htick_size] at hsz2
    omega

/-- Capacity preservation along any run (claim C1's "at every point"). -/
theorem reach_capacity {σ : Type} (E : Engine σ) (residents sizeN : σ → Nat)
    (hfree : ∀ m, E.is_free m = decide (residents m < sizeN m))
    (htick_res : ∀ m, residents (E.tick m) = residents m)
    (htick_size : ∀ m, sizeN (E.tick m) = sizeN m)
    (huse : ∀ m pid pg m', E.use m pid pg = UseRes.ok m' →
      residents m' = residents m ∧ sizeN m' = sizeN m)
    (hufc : ∀ m pid pg, E.use m pid pg = UseRes.fault →
      E.contains m pid pg = some false)
    (hswap : ∀ m pid v m', E.swap m pid = some (v, m') →
      residents m' + 1 = residents m ∧ sizeN m' = sizeN m ∧
      ∀ pg, E.contains m pid pg = some false → E.contains m' pid pg = some false)
    (halloc : ∀ m pid pg m', E.allocate m pid pg = some m' →
      E.contains m pid pg = some false →
      residents m' = residents m + 1 ∧ sizeN m' = sizeN m)
    {m0 m : σ} (hr : Reach E m0 m) (h0 : residents m0 ≤ sizeN m0) :
    residents m ≤ sizeN m := by
  induction hr with
  | refl => exact h0
  | step hreach hstep ih =>
    exact (stepRef_capacity E residents sizeN hfree htick_res htick_size huse hufc
      hswap halloc hstep ih).1

/-- If the pool has free capacity when the reference is processed, the fault
counter increment of that step is zero (claim C3's engine-level content). -/
theorem stepRef_free_no_fault {σ : Type} (E : Engine σ)
    (hufc : ∀ m pid pg, E.use m pid pg = UseRes.fault →
      E.contains m pid pg = some false)
    {mem m' : σ} {pid pg : String} {o : Outcome} {d : Nat}
    (hf : E.is_free (E.tick mem) = true)
    (h : stepRef E mem pid pg = some (m', o, d)) : d = 0 := by
  rcases stepRef_cases E mem pid pg m' o d h with
    ⟨_, _, _, _, hd⟩ | ⟨hor, ⟨_, _, hd⟩ | ⟨hu, v, m2, _, _, _, hd⟩⟩
  · exact hd
  · exact hd
  · rcases hor with hor | hor
    · rw [hf] at hor; exact absurd hor (by simp)
    · have := hufc _ _ _ hu
      rw [hor] at this
      exact absurd this (by simp)

/-- The allocation fast path only installs pages that are not resident. -/
theorem stepRef_alloc_fresh {σ : Type} (E : Engine σ)
    {mem m' : σ} {pid pg : String} {d : Nat}
    (h : stepRef E mem pid pg = some (m', Outcome.allocation, d)) :
    E.contains (E.tick mem) pid pg = some false := by
  rcases stepRef_cases E mem pid pg m' Outcome.allocation d h with
    ⟨_, hc, _, _, _⟩ | ⟨_, ⟨_, ho, _⟩ | ⟨_, v, m2, _, _, ho, _⟩⟩
  · exact hc
  · exact absurd ho (by simp)
  · exact absurd ho (by simp)

/-- The fault path installs the page into a state where it is (still) not
resident: `use` faulted, and the eviction only removed pages. -/
theorem stepRef_fault_fresh {σ : Type} (E : Engine σ)
    (hufc : ∀ m pid pg, E.use m pid pg = UseRes.fault →
      E.contains m pid pg = some false)
    (hswapc : ∀ m pid v m', E.swap m pid = some (v, m') →
      ∀ pg, E.contains m pid pg = some false → E.contains m' pid pg = some false)
    {mem m' : σ} {pid pg v : String} {d : Nat}
    (h : stepRef E mem pid pg = some (m', Outcome.fault v, d)) :
    ∃ m2, E.swap (E.tick mem) pid = some (v, m2) ∧
      E.contains m2 pid pg = some false ∧ E.allocate m2 pid pg = some m' := by
  rcases stepRef_cases E mem pid pg m' (Outcome.fault v) d h with
    ⟨_, _, _, ho, _⟩ | ⟨_, ⟨_, ho, _⟩ | ⟨hu, v', m2, hs, ha, ho, _⟩⟩
  · exact absurd ho (by simp)
  · exact absurd ho (by simp)
  · have hv : v' = v := by
      have := ho.symm
      simpa using this
    subst hv
    exact ⟨m2, hs, hswapc _ _ _ _ hs pg (hufc _ _ _ hu), ha⟩


/-! ## GlobalSpec instance: FIFO -/

theorem gf_use_ok_eq {m m' : GlobalFifoMemory} {pid pg : String}
    (h : GlobalFifoMemory.engine.use m pid pg = UseRes.ok m') :
    m' = m ∧ pg ∈ m.memory := by
  by_cases hm : pg ∈ m.memory
  · simp only [GlobalFifoMemory.engine, if_pos hm] at h
    cases h
    exact ⟨rfl, hm⟩
  · simp only [GlobalFifoMemory.engine, if_neg hm] at h
    cases h

theorem gf_swap_eq {m m' : GlobalFifoMemory} {pid v : String}
    (h : GlobalFifoMemory.engine.swap m pid = some (v, m')) :
    m.memory = v :: m'.memory ∧ m'.size = m.size := by
  cases hm : m.memory with
  | nil => simp [GlobalFifoMemory.engine, hm] at h
  | cons x t =>
    simp only [GlobalFifoMemory.engine, hm, Option.some.injEq, Prod.mk.injEq] at h
    obtain ⟨rfl, rfl⟩ := h
    exact ⟨rfl, rfl⟩

theorem globalFifoSpec : GlobalSpec GlobalFifoMemory.engine
    GlobalFifoMemory.residents (fun m => m.size) (fun _ => True) (fun _ => True)
    (fun _ _ => True) := by
  constructor
  · intro m; rfl
  · intro m; rfl
  · intro m; rfl
  · intro m _; trivial
  · intro m pg _; trivial
  · intro m pid pg
    simp [GlobalFifoMemory.engine]
  · intro m pid pg hc
    simp only [GlobalFifoMemory.engine, Option.some.injEq] at hc
    have hm : pg ∈ m.memory := of_decide_eq_true hc
    exact ⟨m, by simp [GlobalFifoMemory.engine, hm]⟩
  · intro m pid pg h
    by_cases hm : pg ∈ m.memory <;> simp [GlobalFifoMemory.engine, hm] at h
  · intro m pid pg h
    by_cases hm : pg ∈ m.memory
    · simp [GlobalFifoMemory.engine, hm] at h
    · simp [GlobalFifoMemory.engine, hm]
  · intro m pid pg m' h
    obtain ⟨rfl, _⟩ := gf_use_ok_eq h
    exact ⟨rfl, rfl, fun _ => trivial, fun _ _ => trivial⟩
  · intro m pid hres _
    cases hm : m.memory with
    | nil => simp [GlobalFifoMemory.residents, hm] at hres
    | cons x t =>
      exact ⟨x, { m with memory := t }, by simp [GlobalFifoMemory.engine, hm]⟩
  · intro m pid v m' h
    obtain ⟨hmem, hsz⟩ := gf_swap_eq h
    refine ⟨?_, hsz, fun _ => trivial, fun _ _ => trivial, ?_⟩
    · simp [GlobalFifoMemory.residents, hmem]
    · intro pg hc
      simp only [GlobalFifoMemory.engine, Option.some.injEq] at hc ⊢
      have : pg ∉ m.memory := of_decide_eq_false hc
      rw [hmem] at this
      simp only [List.mem_cons, not_or] at this
      simpa using this.2
  · intro m pid pg _ _ _
    exact ⟨_, rfl⟩
  · intro m pid pg m' h hc _
    simp only [GlobalFifoMemory.engine, Option.some.injEq] at h
    subst h
    exact ⟨by simp [GlobalFifoMemory.residents], rfl, fun _ => trivial,
      fun _ _ => trivial⟩


/-! ## GlobalSpec instances: LFU and LRU -/

theorem not_mem_keys_of_contains_false {d : Dict Nat} {pg : String}
    (h : (decide (pg ∈ dictKeys d)) = false) : dictGet d pg = none :=
  dictGet_none_of_not_mem_keys (of_decide_eq_false h)

theorem glfu_use_ok_eq {m m' : GlobalLfuMemory} {pid pg : String}
    (h : GlobalLfuMemory.engine.use m pid pg = UseRes.ok m') :
    ∃ c, dictGet m.memory pg = some c ∧
      m' = { m with memory := dictSet m.memory pg (c + 1) } := by
  cases hg : dictGet m.memory pg with
  | none => simp [GlobalLfuMemory.engine, hg] at h
  | some c =>
    simp only [GlobalLfuMemory.engine, hg] at h
    cases h
    exact ⟨c, rfl, rfl⟩

theorem globalLfuSpec : GlobalSpec GlobalLfuMemory.engine
    GlobalLfuMemory.residents (fun m => m.size) (fun _ => True) (fun _ => True)
    (fun _ _ => True) := by
  constructor
  · intro m; rfl
  · intro m; rfl
  · intro m; rfl
  · intro m _; trivial
  · intro m pg _; trivial
  · intro m pid pg
    simp [GlobalLfuMemory.engine]
  · intro m pid pg hc
    simp only [GlobalLfuMemory.engine, Option.some.injEq] at hc
    have hk : pg ∈ dictKeys m.memory := of_decide_eq_true hc
    obtain ⟨c, hg⟩ := Option.isSome_iff_exists.1 (dictGet_isSome_of_mem_keys hk)
    exact ⟨{ m with memory := dictSet m.memory pg (c + 1) },
      by simp [GlobalLfuMemory.engine, hg]⟩
  · intro m pid pg h
    cases hg : dictGet m.memory pg <;> simp [GlobalLfuMemory.engine, hg] at h
  · intro m pid pg h
    cases hg : dictGet m.memory pg with
    | none =>
      have hk : pg ∉ dictKeys m.memory := by
        intro hk
        have := dictGet_isSome_of_mem_keys hk
        rw [hg] at this
        simp at this
      simp [GlobalLfuMemory.engine, hk]
    | some c => simp [GlobalLfuMemory.engine, hg] at h
  · intro m pid pg m' h
    obtain ⟨c, hg, rfl⟩ := glfu_use_ok_eq h
    refine ⟨?_, rfl, fun _ => trivial, fun _ _ => trivial⟩
    simp [GlobalLfuMemory.residents, length_dictSet_some _ hg]
  · intro m pid hres _
    cases hp : pyExtreme (fun acc y => y.2 < acc.2) m.memory with
    | none =>
      rw [pyExtreme_eq_none_iff] at hp
      simp [GlobalLfuMemory.residents, hp] at hres
    | some p =>
      exact ⟨p.1, { m with memory := dictDel m.memory p.1 },
        by simp [GlobalLfuMemory.engine, hp]⟩
  · intro m pid v m' h
    cases hp : pyExtreme (fun acc y => y.2 < acc.2) m.memory with
    | none => simp [GlobalLfuMemory.engine, hp] at h
    | some p =>
      simp only [GlobalLfuMemory.engine, hp, Option.some.injEq, Prod.mk.injEq] at h
      obtain ⟨rfl, rfl⟩ := h
      have hmem : p ∈ m.memory := pyExtreme_mem hp
      have hk : p.1 ∈ dictKeys m.memory := List.mem_map.2 ⟨p, hmem, rfl⟩
      obtain ⟨w, hg⟩ := Option.isSome_iff_exists.1 (dictGet_isSome_of_mem_keys hk)
      refine ⟨?_, rfl, fun _ => trivial, fun _ _ => trivial, ?_⟩
      · simpa [GlobalLfuMemory.residents] using length_dictDel hg
      · intro pg hc
        simp only [GlobalLfuMemory.engine, Option.some.injEq] at hc
        have hpg : pg ∉ dictKeys m.memory := of_decide_eq_false hc
        have hnd : pg ∉ dictKeys (dictDel m.memory p.1) :=
          fun hk' => hpg (dictKeys_dictDel_sub hk')
        simp [GlobalLfuMemory.engine, hnd]
  · intro m pid pg _ _ _
    exact ⟨_, rfl⟩
  · intro m pid pg m' h hc _
    simp only [GlobalLfuMemory.engine, Option.some.injEq] at h hc
    subst h
    have hg : dictGet m.memory pg = none :=
      dictGet_none_of_not_mem_keys (of_decide_eq_false hc)
    refine ⟨?_, rfl, fun _ => trivial, fun _ _ => trivial⟩
    simp [GlobalLfuMemory.residents, length_dictSet_none _ hg]


theorem glru_use_ok_eq {m m' : GlobalLruMemory} {pid pg : String}
    (h : GlobalLruMemory.engine.use m pid pg = UseRes.ok m') :
    ∃ c, dictGet m.memory pg = some c ∧
      m' = { m with memory := dictSet m.memory pg 0 } := by
  cases hg : dictGet m.memory pg with
  | none => simp [GlobalLruMemory.engine, hg] at h
  | some c =>
    simp only [GlobalLruMemory.engine, hg] at h
    cases h
    exact ⟨c, rfl, rfl⟩

theorem globalLruSpec : GlobalSpec GlobalLruMemory.engine
    GlobalLruMemory.residents (fun m => m.size) (fun _ => True) (fun _ => True)
    (fun _ _ => True) := by
  constructor
  · intro m; rfl
  · intro m
    simp [GlobalLruMemory.engine, GlobalLruMemory.residents]
  · intro m; rfl
  · intro m _; trivial
  · intro m pg _; trivial
  · intro m pid pg
    simp [GlobalLruMemory.engine]
  · intro m pid pg hc
    simp only [GlobalLruMemory.engine, Option.some.injEq] at hc
    have hk : pg ∈ dictKeys m.memory := of_decide_eq_true hc
    obtain ⟨c, hg⟩ := Option.isSome_iff_exists.1 (dictGet_isSome_of_mem_keys hk)
    exact ⟨{ m with memory := dictSet m.memory pg 0 },
      by simp [GlobalLruMemory.engine, hg]⟩
  · intro m pid pg h
    cases hg : dictGet m.memory pg <;> simp [GlobalLruMemory.engine, hg] at h
  · intro m pid pg h
    cases hg : dictGet m.memory pg with
    | none =>
      have hk : pg ∉ dictKeys m.memory := by
        intro hk
        have := dictGet_isSome_of_mem_keys hk
        rw [hg] at this
        simp at this
      simp [GlobalLruMemory.engine, hk]
    | some c => simp [GlobalLruMemory.engine, hg] at h
  · intro m pid pg m' h
    obtain ⟨c, hg, rfl⟩ := glru_use_ok_eq h
    refine ⟨?_, rfl, fun _ => trivial, fun _ _ => trivial⟩
    simp [GlobalLruMemory.residents, length_dictSet_some _ hg]
  · intro m pid hres _
    cases hp : pyExtreme (fun acc y => acc.2 < y.2) m.memory with
    | none =>
      rw [pyExtreme_eq_none_iff] at hp
      simp [GlobalLruMemory.residents, hp] at hres
    | some p =>
      exact ⟨p.1, { m with memory := dictDel m.memory p.1 },
        by simp [GlobalLruMemory.engine, hp]⟩
  · intro m pid v m' h
    cases hp : pyExtreme (fun acc y => acc.2 < y.2) m.memory with
    | none => simp [GlobalLruMemory.engine, hp] at h
    | some p =>
      simp only [GlobalLruMemory.engine, hp, Option.some.injEq, Prod.mk.injEq] at h
      obtain ⟨rfl, rfl⟩ := h
      have hmem : p ∈ m.memory := pyExtreme_mem hp
      have hk : p.1 ∈ dictKeys m.memory := List.mem_map.2 ⟨p, hmem, rfl⟩
      obtain ⟨w, hg⟩ := Option.isSome_iff_exists.1 (dictGet_isSome_of_mem_keys hk)
      refine ⟨?_, rfl, fun _ => trivial, fun _ _ => trivial, ?_⟩
      · simpa [GlobalLruMemory.residents] using length_dictDel hg
      · intro pg hc
        simp only [GlobalLruMemory.engine, Option.some.injEq] at hc
        have hpg : pg ∉ dictKeys m.memory := of_decide_eq_false hc
        have hnd : pg ∉ dictKeys (dictDel m.memory p.1) :=
          fun hk' => hpg (dictKeys_dictDel_sub hk')
        simp [GlobalLruMemory.engine, hnd]
  · intro m pid pg _ _ _
    exact ⟨_, rfl⟩
  · intro m pid pg m' h hc _
    simp only [GlobalLruMemory.engine, Option.some.injEq] at h hc
    subst h
    have hg : dictGet m.memory pg = none :=
      dictGet_none_of_not_mem_keys (of_decide_eq_false hc)
    refine ⟨?_, rfl, fun _ => trivial, fun _ _ => trivial⟩
    simp [GlobalLruMemory.residents, length_dictSet_none _ hg]


/-! ## GlobalSpec instance: Optimal -/

theorem match_dictSet_comm (accesses : List String) (start : Nat)
    (pc : Dict Dist) (page : String) :
    (match indexFrom accesses page start with
     | some idx => dictSet pc page (Dist.fin (idx - start))
     | none => dictSet pc page Dist.inf) =
    dictSet pc page (match indexFrom accesses page start with
     | some idx => Dist.fin (idx - start)
     | none => Dist.inf) := by
  cases indexFrom accesses page start <;> rfl

theorem tick_fold_eq (accesses : List String) (start : Nat) :
    ∀ (pages : List String) (pc : Dict Dist),
      pages.foldl (fun pc page => match indexFrom accesses page start with
        | some idx => dictSet pc page (Dist.fin (idx - start))
        | none => dictSet pc page Dist.inf) pc =
      pages.foldl (fun pc page => dictSet pc page
        (match indexFrom accesses page start with
         | some idx => Dist.fin (idx - start)
         | none => Dist.inf)) pc := by
  intro pages
  induction pages with
  | nil => intro pc; rfl
  | cons p ps ih =>
    intro pc
    simp only [List.foldl_cons]
    rw [match_dictSet_comm]
    exact ih _

theorem foldl_dictSet_keys (g : String → Dist) :
    ∀ (pages : List String) (pc : Dict Dist) (q : String),
      (q ∈ dictKeys pc ∨ q ∈ pages) →
      q ∈ dictKeys (pages.foldl (fun pc page => dictSet pc page (g page)) pc) := by
  intro pages
  induction pages with
  | nil =>
    intro pc q h
    rcases h with h | h
    · exact h
    · simp at h
  | cons p ps ih =>
    intro pc q h
    simp only [List.foldl_cons]
    rcases h with h | h
    · exact ih _ _ (Or.inl ((mem_dictKeys_dictSet pc p q (g p)).2 (Or.inl h)))
    · rcases List.mem_cons.1 h with h | h
      · exact ih _ _ (Or.inl ((mem_dictKeys_dictSet pc p q (g p)).2 (Or.inr h)))
      · exact ih _ _ (Or.inr h)

theorem gopt_tick_keys (m : GlobalOptMemory) (q : String)
    (h : q ∈ dictKeys m.pointers_count ∨ q ∈ m.pages) :
    q ∈ dictKeys (GlobalOptMemory.tick m).pointers_count := by
  show q ∈ dictKeys (m.pages.foldl _ m.pointers_count)
  rw [tick_fold_eq]
  exact foldl_dictSet_keys _ _ _ _ h

theorem globalOptSpec : GlobalSpec GlobalOptMemory.engine
    GlobalOptMemory.residents (fun m => m.size) GlobalOptMemory.covered
    GlobalOptMemory.covered2 GlobalOptMemory.pgOk := by
  constructor
  · intro m; rfl
  · intro m; rfl
  · intro m; rfl
  · intro m hcov
    constructor
    · intro p hp
      exact gopt_tick_keys m p (Or.inl (hcov p hp))
    · intro p hp
      exact gopt_tick_keys m p (Or.inr hp)
  · intro m pg h; exact h
  · intro m pid pg
    simp [GlobalOptMemory.engine]
  · intro m pid pg hc
    simp only [GlobalOptMemory.engine, Option.some.injEq] at hc
    have hm : pg ∈ m.memory := of_decide_eq_true hc
    exact ⟨m, by simp [GlobalOptMemory.engine, hm]⟩
  · intro m pid pg h
    by_cases hm : pg ∈ m.memory <;> simp [GlobalOptMemory.engine, hm] at h
  · intro m pid pg h
    by_cases hm : pg ∈ m.memory
    · simp [GlobalOptMemory.engine, hm] at h
    · simp [GlobalOptMemory.engine, hm]
  · intro m pid pg m' h
    have hm : m' = m := by
      by_cases hmem : pg ∈ m.memory
      · simp only [GlobalOptMemory.engine, if_pos hmem] at h
        cases h; rfl
      · simp [GlobalOptMemory.engine, hmem] at h
    subst hm
    exact ⟨rfl, rfl, fun h2 => h2.1, fun _ h => h⟩
  · intro m pid hres hcov2
    have hmem : ∃ x, x ∈ m.memory := by
      cases hm : m.memory with
      | nil => simp [GlobalOptMemory.residents, hm] at hres
      | cons x t => exact ⟨x, hm ▸ List.mem_cons_self x t⟩
    obtain ⟨x, hx⟩ := hmem
    have hk : x ∈ dictKeys m.pointers_count := hcov2.1 x hx
    obtain ⟨pr, hpr, hfst⟩ := List.mem_map.1 hk
    have hfil : pr ∈ m.pointers_count.filter (fun p => decide (p.1 ∈ m.memory)) :=
      List.mem_filter.2 ⟨hpr, by simp [hfst, hx]⟩
    cases hp : pyExtreme (fun acc y => distLt acc.2 y.2)
        (m.pointers_count.filter (fun p => decide (p.1 ∈ m.memory))) with
    | none =>
      rw [pyExtreme_eq_none_iff] at hp
      rw [hp] at hfil
      simp at hfil
    | some md =>
      exact ⟨md.1, { m with memory := m.memory.erase md.1 },
        by simp [GlobalOptMemory.engine, GlobalOptMemory.swap, hp]⟩
  · intro m pid v m' h
    simp only [GlobalOptMemory.engine, GlobalOptMemory.swap] at h
    cases hp : pyExtreme (fun acc y => distLt acc.2 y.2)
        (m.pointers_count.filter (fun p => decide (p.1 ∈ m.memory))) with
    | none => rw [hp] at h; simp at h
    | some md =>
      rw [hp] at h
      simp only [Option.some.injEq, Prod.mk.injEq] at h
      obtain ⟨rfl, rfl⟩ := h
      have hmd := pyExtreme_mem hp
      have hmem : md.1 ∈ m.memory := by
        have := (List.mem_filter.1 hmd).2
        simpa using this
      refine ⟨?_, rfl, ?_, fun s h => h, ?_⟩
      · have hlen := List.length_erase_of_mem hmem
        have hpos : 0 < m.memory.length := List.length_pos_of_mem hmem
        simp only [GlobalOptMemory.residents]
        omega
      · intro h2
        exact ⟨fun p hp' => h2.1 p (List.mem_of_mem_erase hp'), h2.2⟩
      · intro pg hc
        simp only [GlobalOptMemory.engine, Option.some.injEq] at hc
        have hpg : pg ∉ m.memory := of_decide_eq_false hc
        have : pg ∉ m.memory.erase md.1 := fun hmem' => hpg (List.mem_of_mem_erase hmem')
        simp [GlobalOptMemory.engine, this]
  · intro m pid pg _ _ _
    exact ⟨_, rfl⟩
  · intro m pid pg m' h hc hpg
    simp only [GlobalOptMemory.engine, Option.some.injEq] at h hc
    subst h
    have hnm : pg ∉ m.memory := of_decide_eq_false hc
    refine ⟨?_, rfl, ?_, fun s h => h⟩
    · simp [GlobalOptMemory.residents, length_setAdd_of_not_mem hnm]
    · intro h2
      intro q hq
      rcases (mem_setAdd_iff m.memory pg q).1 hq with hq | hq
      · exact h2.1 q hq
      · exact hq ▸ h2.2 pg hpg


/-! ## The loop invariant for global engines survives the pass -/

theorem midGlobal_skip {σ : Type} (sizeN : σ → Nat) (extra : σ → Prop)
    (PgOk : σ → String → Prop) :
    ∀ done a todo mem, MidGlobal sizeN extra PgOk done ((a, true) :: todo) mem →
      MidGlobal sizeN extra PgOk (done ++ [(a, true)]) todo mem := by
  intro done a todo mem h
  rwa [MidGlobal, ← List.append_cons]

theorem midGlobal_retire {σ : Type} (sizeN : σ → Nat) (extra : σ → Prop)
    (PgOk : σ → String → Prop) :
    ∀ done a todo mem, MidGlobal sizeN extra PgOk done ((a, false) :: todo) mem →
      a.accesses.get? a.calls = none →
      MidGlobal sizeN extra PgOk
        (done ++ [({ a with calls := a.calls + 1 }, true)]) todo mem := by
  intro done a todo mem h _
  obtain ⟨h1, h2, h3⟩ := h
  refine ⟨h1, h2, ?_⟩
  rw [← List.append_cons]
  intro e he s hs
  rcases List.mem_append.1 he with he | he
  · exact h3 e (List.mem_append.2 (Or.inl he)) s hs
  · rcases List.mem_cons.1 he with he | he
    · subst he
      exact h3 (a, false) (List.mem_append.2 (Or.inr (List.mem_cons_self _ _))) s hs
    · exact h3 e (List.mem_append.2 (Or.inr (List.mem_cons_of_mem _ he))) s hs

theorem midGlobal_restart {σ : Type} (sizeN : σ → Nat) (extra : σ → Prop)
    (PgOk : σ → String → Prop) :
    ∀ accs mem, MidGlobal sizeN extra PgOk accs [] mem →
      MidGlobal sizeN extra PgOk [] accs mem := by
  intro accs mem h
  obtain ⟨h1, h2, h3⟩ := h
  exact ⟨h1, h2, by simpa using h3⟩

theorem midGlobal_step {σ : Type} {E : Engine σ} {residents sizeN : σ → Nat}
    {extra extra2 : σ → Prop} {PgOk : σ → String → Prop}
    (S : GlobalSpec E residents sizeN extra extra2 PgOk) :
    ∀ done a todo mem page,
      MidGlobal sizeN extra PgOk done ((a, false) :: todo) mem →
      a.accesses.get? a.calls = some page →
      ∃ m' o d, stepRef E mem a.pid page = some (m', o, d) ∧
        MidGlobal sizeN extra PgOk
          (done ++ [({ a with calls := a.calls + 1 }, false)]) todo m' := by
  intro done a todo mem page hmid hget
  obtain ⟨hsz, hextra, hcov⟩ := hmid
  have hpmem : page ∈ a.accesses := List.get?_mem hget
  have hpg0 : PgOk mem page :=
    hcov (a, false) (List.mem_append.2 (Or.inr (List.mem_cons_self _ _))) page hpmem
  have hex2 : extra2 (E.tick mem) := S.tick_extra mem hextra
  have hpg1 : PgOk (E.tick mem) page := S.tick_pgok mem page hpg0
  have hcov1 : ∀ e ∈ done ++ (a, false) :: todo, ∀ s ∈ e.1.accesses,
      PgOk (E.tick mem) s :=
    fun e he s hs => S.tick_pgok mem s (hcov e he s hs)
  have mkMid : ∀ (m' : σ), sizeN m' = sizeN (E.tick mem) → extra m' →
      (∀ s, PgOk (E.tick mem) s → PgOk m' s) →
      MidGlobal sizeN extra PgOk
        (done ++ [({ a with calls := a.calls + 1 }, false)]) todo m' := by
    intro m' hsz' hex' hpres
    refine ⟨?_, hex', ?_⟩
    · rw [hsz', S.tick_size]; exact hsz
    · rw [← List.append_cons]
      intro e he s hs
      rcases List.mem_append.1 he with he | he
      · exact hpres s (hcov1 e (List.mem_append.2 (Or.inl he)) s hs)
      · rcases List.mem_cons.1 he with he | he
        · subst he
          exact hpres s (hcov1 (a, false)
            (List.mem_append.2 (Or.inr (List.mem_cons_self _ _))) s hs)
        · exact hpres s (hcov1 e
            (List.mem_append.2 (Or.inr (List.mem_cons_of_mem _ he))) s hs)
  cases hf : E.is_free (E.tick mem) with
  | true =>
    cases hc : E.contains (E.tick mem) a.pid page with
    | none => exact absurd hc (S.contains_some _ _ _)
    | some b =>
      cases b with
      | false =>
        obtain ⟨m2, ha⟩ := S.alloc_ok _ _ _ hc hpg1 hex2
        obtain ⟨_, hsz2, hex', hpres⟩ := S.alloc_facts _ _ _ _ ha hc hpg1
        exact ⟨m2, Outcome.allocation, 0, stepRef_eq_alloc E hf hc ha,
          mkMid m2 hsz2 (hex' hex2) hpres⟩
      | true =>
        obtain ⟨m2, hu⟩ := S.contains_true_use _ _ _ hc
        obtain ⟨_, hsz2, hex', hpres⟩ := S.use_ok_facts _ _ _ _ hu
        exact ⟨m2, Outcome.hit, 0, stepRef_eq_hit_free E hf hc hu,
          mkMid m2 hsz2 (hex' hex2) hpres⟩
  | false =>
    cases hu : E.use (E.tick mem) a.pid page with
    | ok m2 =>
      obtain ⟨_, hsz2, hex', hpres⟩ := S.use_ok_facts _ _ _ _ hu
      exact ⟨m2, Outcome.hit, 0, stepRef_eq_hit_full E hf hu,
        mkMid m2 hsz2 (hex' hex2) hpres⟩
    | err => exact absurd hu (S.use_no_err _ _ _)
    | fault =>
      have hres1 : 1 ≤ residents (E.tick mem) := by
        have hd := S.is_free_def (E.tick mem)
        rw [hf] at hd
        have : ¬ (residents (E.tick mem) < sizeN (E.tick mem)) :=
          of_decide_eq_false hd.symm
        have hsz1 : sizeN (E.tick mem) = sizeN mem := S.tick_size mem
        omega
      obtain ⟨v, m2, hs⟩ := S.swap_ok _ a.pid hres1 hex2
      obtain ⟨hres2, hsz2, hex2', hpres2, hcpres⟩ := S.swap_facts _ _ _ _ hs
      have hc1 : E.contains (E.tick mem) a.pid page = some false :=
        S.use_fault_contains _ _ _ hu
      have hc2 : E.contains m2 a.pid page = some false := hcpres page hc1
      have hpg2 : PgOk m2 page := hpres2 page hpg1
      obtain ⟨m3, ha⟩ := S.alloc_ok _ _ _ hc2 hpg2 (hex2' hex2)
      obtain ⟨_, hsz3, hex3, hpres3⟩ := S.alloc_facts _ _ _ _ ha hc2 hpg2
      refine ⟨m3, Outcome.fault v, 1, stepRef_eq_fault_full E hf hu hs ha, ?_⟩
      exact mkMid m3 (by rw [hsz3, hsz2]) (hex3 (hex2' hex2))
        (fun s h => hpres3 s (hpres2 s h))

/-- Global engines never raise an engine error when capacity is at least 1
(plus, for Optimal, when the accessors only reference pages of the full
trace the engine precomputes distances for). -/
theorem midGlobal_no_error {σ : Type} {E : Engine σ}
    {residents sizeN : σ → Nat} {extra extra2 : σ → Prop}
    {PgOk : σ → String → Prop}
    (S : GlobalSpec E residents sizeN extra extra2 PgOk) :
    ∀ (fuel : Nat) (s : SimState σ),
      MidGlobal sizeN extra PgOk [] s.accs s.mem →
      simLoopFuel E fuel s ≠ SimResult.engineError :=
  simLoop_no_error E (MidGlobal sizeN extra PgOk)
    (midGlobal_skip sizeN extra PgOk)
    (midGlobal_retire sizeN extra PgOk)
    (midGlobal_step S)
    (midGlobal_restart sizeN extra PgOk)


/-! ## The loop invariant for local engines survives the pass -/

theorem aligned_skip {c : Nat} {done todo : List (MemoryAccessor × Bool)}
    {a : MemoryAccessor}
    (hal : Aligned c done ((a, true) :: todo)) :
    Aligned c (done ++ [(a, true)]) todo := by
  refine ⟨?_, ?_, ?_⟩
  · intro e he hef
    exact hal.1 e (List.mem_cons_of_mem _ he) hef
  · intro e he hef
    rcases List.mem_append.1 he with he | he
    · exact hal.2.1 e he hef
    · rcases List.mem_singleton.1 he with rfl
      simp at hef
  · intro e he hef
    rw [← List.append_cons] at he
    exact hal.2.2 e he hef

theorem aligned_retire {c : Nat} {done todo : List (MemoryAccessor × Bool)}
    {a : MemoryAccessor}
    (hal : Aligned c done ((a, false) :: todo))
    (hlen : a.accesses.length ≤ a.calls) :
    Aligned c (done ++ [({ a with calls := a.calls + 1 }, true)]) todo := by
  have hcalls : a.calls = c := hal.1 (a, false) (List.mem_cons_self _ _) rfl
  refine ⟨?_, ?_, ?_⟩
  · intro e he hef
    exact hal.1 e (List.mem_cons_of_mem _ he) hef
  · intro e he hef
    rcases List.mem_append.1 he with he | he
    · exact hal.2.1 e he hef
    · rcases List.mem_singleton.1 he with rfl
      simp at hef
  · intro e he hef
    rw [← List.append_cons] at he
    rcases List.mem_append.1 he with he | he
    · exact hal.2.2 e (List.mem_append.2 (Or.inl he)) hef
    · rcases List.mem_cons.1 he with rfl | he
      · constructor <;> simp <;> omega
      · exact hal.2.2 e (List.mem_append.2 (Or.inr (List.mem_cons_of_mem _ he))) hef

theorem aligned_step {c : Nat} {done todo : List (MemoryAccessor × Bool)}
    {a : MemoryAccessor}
    (hal : Aligned c done ((a, false) :: todo)) :
    Aligned c (done ++ [({ a with calls := a.calls + 1 }, false)]) todo := by
  have hcalls : a.calls = c := hal.1 (a, false) (List.mem_cons_self _ _) rfl
  refine ⟨?_, ?_, ?_⟩
  · intro e he hef
    exact hal.1 e (List.mem_cons_of_mem _ he) hef
  · intro e he hef
    rcases List.mem_append.1 he with he | he
    · exact hal.2.1 e he hef
    · rcases List.mem_singleton.1 he with rfl
      simp [hcalls]
  · intro e he hef
    rw [← List.append_cons] at he
    rcases List.mem_append.1 he with he | he
    · exact hal.2.2 e (List.mem_append.2 (Or.inl he)) hef
    · rcases List.mem_cons.1 he with rfl | he
      · simp at hef
      · exact hal.2.2 e (List.mem_append.2 (Or.inr (List.mem_cons_of_mem _ he))) hef

theorem aligned_restart {c : Nat} {accs : List (MemoryAccessor × Bool)}
    (hal : Aligned c accs []) : Aligned (c + 1) [] accs := by
  refine ⟨?_, ?_, ?_⟩
  · intro e he hef
    exact hal.2.1 e he hef
  · intro e he hef
    simp at he
  · intro e he hef
    simp only [List.nil_append] at he
    have := hal.2.2 e (by simpa using he) hef
    omega

theorem consumedSum_bound_of_aligned_zero {done todo : List (MemoryAccessor × Bool)}
    {a : MemoryAccessor}
    (hal : Aligned 0 done ((a, false) :: todo)) :
    consumedSum (done ++ (a, false) :: todo) ≤ done.length := by
  have hdone : ∀ e ∈ done, consumed e.1 ≤ 1 := by
    intro e he
    by_cases hef : e.2 = true
    · have h := hal.2.2 e (List.mem_append.2 (Or.inl he)) hef
      simp only [consumed]
      omega
    · have hf : e.2 = false := by simpa using hef
      have h := hal.2.1 e he hf
      simp only [consumed]
      omega
  have htodo : ∀ e ∈ (a, false) :: todo, consumed e.1 = 0 := by
    intro e he
    by_cases hef : e.2 = true
    · have h := hal.2.2 e (List.mem_append.2 (Or.inr he)) hef
      simp only [consumed]
      omega
    · have hf : e.2 = false := by simpa using hef
      have h := hal.1 e he hf
      simp only [consumed, h]
      omega
  have h1 : consumedSum done ≤ done.length := by
    have hb := List.sum_le_card_nsmul (done.map (fun e => consumed e.1)) 1 (by
      intro x hx
      obtain ⟨e, he, rfl⟩ := List.mem_map.1 hx
      exact hdone e he)
    simpa [consumedSum, smul_eq_mul] using hb
  have h2 : consumedSum ((a, false) :: todo) = 0 := by
    apply List.sum_eq_zero
    intro x hx
    obtain ⟨e, he, rfl⟩ := List.mem_map.1 hx
    exact htodo e he
  have hsplit : consumedSum (done ++ (a, false) :: todo) =
      consumedSum done + consumedSum ((a, false) :: todo) := by
    simp [consumedSum]
  omega


theorem consumedSum_append_cons (done todo : List (MemoryAccessor × Bool))
    (x : MemoryAccessor × Bool) :
    consumedSum (done ++ x :: todo) =
      consumedSum done + consumed x.1 + consumedSum todo := by
  simp only [consumedSum, List.map_append, List.sum_append, List.map_cons,
    List.sum_cons]
  omega

theorem midLocal_skip {σ : Type} (psz : σ → String → Option Nat)
    (residents sizeN : σ → Nat) (extra : σ → Prop) (PgOk : σ → String → Prop) :
    ∀ done a todo mem,
      MidLocal psz residents sizeN extra PgOk done ((a, true) :: todo) mem →
      MidLocal psz residents sizeN extra PgOk (done ++ [(a, true)]) todo mem := by
  intro done a todo mem hmid
  obtain ⟨c, hal, hsome, hne, hres, hlen, hextra, hcov⟩ := hmid
  refine ⟨c, aligned_skip hal, ?_, ?_, ?_, ?_, hextra, ?_⟩ <;>
    rw [← List.append_cons]
  · exact hsome
  · exact hne
  · exact hres
  · exact hlen
  · exact hcov

theorem midLocal_retire {σ : Type} (psz : σ → String → Option Nat)
    (residents sizeN : σ → Nat) (extra : σ → Prop) (PgOk : σ → String → Prop) :
    ∀ done a todo mem,
      MidLocal psz residents sizeN extra PgOk done ((a, false) :: todo) mem →
      a.accesses.get? a.calls = none →
      MidLocal psz residents sizeN extra PgOk
        (done ++ [({ a with calls := a.calls + 1 }, true)]) todo mem := by
  intro done a todo mem hmid hget
  obtain ⟨c, hal, hsome, hne, hres, hlen, hextra, hcov⟩ := hmid
  have hge : a.accesses.length ≤ a.calls := List.get?_eq_none.1 hget
  have hcons : consumed { a with calls := a.calls + 1 } = consumed a := by
    simp only [consumed]
    omega
  have hmemA : (a, false) ∈ done ++ (a, false) :: todo :=
    List.mem_append.2 (Or.inr (List.mem_cons_self _ _))
  refine ⟨c, aligned_retire hal hge, ?_, ?_, ?_, ?_, hextra, ?_⟩ <;>
    rw [← List.append_cons]
  · intro e he
    rcases List.mem_append.1 he with he | he
    · exact hsome e (List.mem_append.2 (Or.inl he))
    · rcases List.mem_cons.1 he with rfl | he
      · exact hsome (a, false) hmemA
      · exact hsome e (List.mem_append.2 (Or.inr (List.mem_cons_of_mem _ he)))
  · intro e he hc n hn
    rcases List.mem_append.1 he with he | he
    · exact hne e (List.mem_append.2 (Or.inl he)) hc n hn
    · rcases List.mem_cons.1 he with rfl | he
      · exact hne (a, false) hmemA (by simpa [hcons] using hc) n hn
      · exact hne e (List.mem_append.2 (Or.inr (List.mem_cons_of_mem _ he))) hc n hn
  · rw [consumedSum_append_cons]
    rw [consumedSum_append_cons] at hres
    simp only [hcons]
    exact hres
  · simpa using hlen
  · intro e he s hs
    rcases List.mem_append.1 he with he | he
    · exact hcov e (List.mem_append.2 (Or.inl he)) s hs
    · rcases List.mem_cons.1 he with rfl | he
      · exact hcov (a, false) hmemA s hs
      · exact hcov e (List.mem_append.2 (Or.inr (List.mem_cons_of_mem _ he))) s hs

theorem midLocal_restart {σ : Type} (psz : σ → String → Option Nat)
    (residents sizeN : σ → Nat) (extra : σ → Prop) (PgOk : σ → String → Prop) :
    ∀ accs mem,
      MidLocal psz residents sizeN extra PgOk accs [] mem →
      MidLocal psz residents sizeN extra PgOk [] accs mem := by
  intro accs mem hmid
  obtain ⟨c, hal, hsome, hne, hres, hlen, hextra, hcov⟩ := hmid
  refine ⟨c + 1, aligned_restart hal, ?_, ?_, ?_, ?_, hextra, ?_⟩ <;>
    simp only [List.nil_append] <;> rw [← List.append_nil accs] <;>
    first
      | exact hsome
      | exact hne
      | exact hres
      | exact hlen
      | exact hcov

theorem midLocal_step {σ : Type} {E : Engine σ} {psz : σ → String → Option Nat}
    {residents sizeN : σ → Nat} {extra extra2 : σ → Prop}
    {PgOk : σ → String → Prop}
    (S : LocalSpec E psz residents sizeN extra extra2 PgOk) :
    ∀ done a todo mem page,
      MidLocal psz residents sizeN extra PgOk done ((a, false) :: todo) mem →
      a.accesses.get? a.calls = some page →
      ∃ m' o d, stepRef E mem a.pid page = some (m', o, d) ∧
        MidLocal psz residents sizeN extra PgOk
          (done ++ [({ a with calls := a.calls + 1 }, false)]) todo m' := by
  intro done a todo mem page hmid hget
  obtain ⟨c, hal, hsome, hne, hres, hlen, hextra, hcov⟩ := hmid
  have hcalls : a.calls = c := hal.1 (a, false) (List.mem_cons_self _ _) rfl
  have hcl : a.calls < a.accesses.length := by
    by_contra hnot
    rw [List.get?_eq_none.2 (by omega)] at hget
    exact absurd hget (by simp)
  have hpmem : page ∈ a.accesses := List.get?_mem hget
  have hmemA : (a, false) ∈ done ++ (a, false) :: todo :=
    List.mem_append.2 (Or.inr (List.mem_cons_self _ _))
  have hpg0 : PgOk mem page := hcov _ hmemA page hpmem
  have hex2 : extra2 (E.tick mem) := S.tick_extra mem hextra
  have hpg1 : PgOk (E.tick mem) page := S.tick_pgok mem page hpg0
  obtain ⟨nA, hgA⟩ := Option.isSome_iff_exists.1 (hsome _ hmemA)
  have hgA1 : psz (E.tick mem) a.pid = some nA := by rw [S.tick_psz]; exact hgA
  have hconsA : consumed { a with calls := a.calls + 1 } = consumed a + 1 := by
    simp only [consumed]
    omega
  have mkMid : ∀ (m' : σ),
      (∀ q, q ≠ a.pid → psz m' q = psz mem q) →
      (∃ n', psz m' a.pid = some n' ∧ 1 ≤ n') →
      residents m' ≤ residents mem + 1 →
      sizeN m' = sizeN mem →
      extra m' →
      (∀ s, PgOk mem s → PgOk m' s) →
      MidLocal psz residents sizeN extra PgOk
        (done ++ [({ a with calls := a.calls + 1 }, false)]) todo m' := by
    rintro m' hq ⟨n', hgA', hn'⟩ hres' hsz' hex' hpres
    refine ⟨c, aligned_step hal, ?_, ?_, ?_, ?_, hex', ?_⟩
    · rw [← List.append_cons]
      intro e he
      by_cases hpid : e.1.pid = a.pid
      · rw [hpid, hgA']; rfl
      · rw [hq _ hpid]
        rcases List.mem_append.1 he with he | he
        · exact hsome e (List.mem_append.2 (Or.inl he))
        · rcases List.mem_cons.1 he with rfl | he
          · simp at hpid
          · exact hsome e (List.mem_append.2 (Or.inr (List.mem_cons_of_mem _ he)))
    · rw [← List.append_cons]
      intro e he hc n hn
      by_cases hpid : e.1.pid = a.pid
      · rw [hpid, hgA'] at hn
        cases hn
        exact hn'
      · rw [hq _ hpid] at hn
        rcases List.mem_append.1 he with he | he
        · exact hne e (List.mem_append.2 (Or.inl he)) hc n hn
        · rcases List.mem_cons.1 he with rfl | he
          · simp at hpid
          · exact hne e (List.mem_append.2 (Or.inr (List.mem_cons_of_mem _ he))) hc n hn
    · have h1 : consumedSum ((done ++ [({ a with calls := a.calls + 1 }, false)]) ++ todo)
          = consumedSum (done ++ (a, false) :: todo) + 1 := by
        rw [← List.append_cons, consumedSum_append_cons, consumedSum_append_cons]
        simp only
        omega
      rw [h1]
      omega
    · rw [← List.append_cons, hsz']
      simpa using hlen
    · rw [← List.append_cons]
      intro e he s hs
      rcases List.mem_append.1 he with he | he
      · exact hpres s (hcov e (List.mem_append.2 (Or.inl he)) s hs)
      · rcases List.mem_cons.1 he with rfl | he
        · exact hpres s (hcov (a, false) hmemA s hs)
        · exact hpres s (hcov e (List.mem_append.2 (Or.inr (List.mem_cons_of_mem _ he))) s hs)
  cases hf : E.is_free (E.tick mem) with
  | true =>
    cases hc : E.contains (E.tick mem) a.pid page with
    | none =>
      have hnone := S.contains_none _ _ _ hc
      rw [S.tick_psz, hgA] at hnone
      cases hnone
    | some b =>
      cases b with
      | false =>
        obtain ⟨m2, ha⟩ := S.alloc_ok _ _ _ hc hpg1 hex2
        obtain ⟨⟨n, hgn, hgn'⟩, hq, hres2, hsz2, hex', hpres⟩ :=
          S.alloc_facts _ _ _ _ ha hc hpg1
        refine ⟨m2, _, _, stepRef_eq_alloc E hf hc ha, ?_⟩
        apply mkMid m2
        · intro q hqq; rw [hq q hqq, S.tick_psz]
        · exact ⟨n + 1, hgn', by omega⟩
        · rw [hres2, S.tick_res]
        · rw [hsz2, S.tick_size]
        · exact hex' hex2
        · intro s hss; exact hpres s (S.tick_pgok mem s hss)
      | true =>
        obtain ⟨m2, hu⟩ := S.contains_true_use _ _ _ hc
        obtain ⟨hqall, hres2, hsz2, hex', hpres, n, hgn, hn1⟩ :=
          S.use_ok_facts _ _ _ _ hu
        refine ⟨m2, _, _, stepRef_eq_hit_free E hf hc hu, ?_⟩
        apply mkMid m2
        · intro q hqq; rw [hqall q, S.tick_psz]
        · exact ⟨n, by rw [hqall a.pid]; exact hgn, hn1⟩
        · rw [hres2, S.tick_res]; omega
        · rw [hsz2, S.tick_size]
        · exact hex' hex2
        · intro s hss; exact hpres s (S.tick_pgok mem s hss)
  | false =>
    have hc1 : 1 ≤ c := by
      by_contra hc0
      have hc0' : c = 0 := by omega
      subst hc0'
      have hb := consumedSum_bound_of_aligned_zero hal
      have hlen' := hlen
      simp only [List.length_append, List.length_cons] at hlen'
      have hlt : residents mem < sizeN mem := by omega
      have hfree : E.is_free (E.tick mem) = true := by
        rw [S.is_free_def, S.tick_res, S.tick_size]
        exact decide_eq_true hlt
      rw [hf] at hfree
      cases hfree
    have hnA1 : 1 ≤ nA := by
      have hconsa : 1 ≤ consumed a := by
        simp only [consumed]
        omega
      exact hne _ hmemA hconsa nA hgA
    cases hu : E.use (E.tick mem) a.pid page with
    | ok m2 =>
      obtain ⟨hqall, hres2, hsz2, hex', hpres, n, hgn, hn1⟩ :=
        S.use_ok_facts _ _ _ _ hu
      refine ⟨m2, _, _, stepRef_eq_hit_full E hf hu, ?_⟩
      apply mkMid m2
      · intro q hqq; rw [hqall q, S.tick_psz]
      · exact ⟨n, by rw [hqall a.pid]; exact hgn, hn1⟩
      · rw [hres2, S.tick_res]; omega
      · rw [hsz2, S.tick_size]
      · exact hex' hex2
      · intro s hss; exact hpres s (S.tick_pgok mem s hss)
    | err =>
      have herr := S.use_err _ _ _ hu
      rw [hgA1] at herr
      cases herr
    | fault =>
      obtain ⟨v, m2, hs⟩ := S.swap_ok _ _ nA hgA1 hnA1 hex2
      obtain ⟨⟨n2, hg2, hg2'⟩, hq2, hres2, hsz2, hex2', hpres2, hcpres⟩ :=
        S.swap_facts _ _ _ _ hs
      have hcf : E.contains (E.tick mem) a.pid page = some false :=
        S.use_fault_contains _ _ _ hu
      have hcf2 : E.contains m2 a.pid page = some false := hcpres page hcf
      have hpg2 : PgOk m2 page := hpres2 page hpg1
      obtain ⟨m3, ha⟩ := S.alloc_ok _ _ _ hcf2 hpg2 (hex2' hex2)
      obtain ⟨⟨n3, hg3, hg3'⟩, hq3, hres3, hsz3, hex3, hpres3⟩ :=
        S.alloc_facts _ _ _ _ ha hcf2 hpg2
      refine ⟨m3, _, _, stepRef_eq_fault_full E hf hu hs ha, ?_⟩
      apply mkMid m3
      · intro q hqq; rw [hq3 q hqq, hq2 q hqq, S.tick_psz]
      · exact ⟨n3 + 1, hg3', by omega⟩
      · have ht := S.tick_res mem
        omega
      · rw [hsz3, hsz2, S.tick_size]
      · exact hex3 (hex2' hex2)
      · intro s hss; exact hpres3 s (hpres2 s (S.tick_pgok mem s hss))

/-- Local engines never raise an engine error: with capacity at least the
number of processes and the documented setup, every fault happens on a
nonempty own partition. -/
theorem midLocal_no_error {σ : Type} {E : Engine σ}
    {psz : σ → String → Option Nat} {residents sizeN : σ → Nat}
    {extra extra2 : σ → Prop} {PgOk : σ → String → Prop}
    (S : LocalSpec E psz residents sizeN extra extra2 PgOk) :
    ∀ (fuel : Nat) (s : SimState σ),
      MidLocal psz residents sizeN extra PgOk [] s.accs s.mem →
      simLoopFuel E fuel s ≠ SimResult.engineError :=
  simLoop_no_error E (MidLocal psz residents sizeN extra PgOk)
    (midLocal_skip psz residents sizeN extra PgOk)
    (midLocal_retire psz residents sizeN extra PgOk)
    (midLocal_step S)
    (midLocal_restart psz residents sizeN extra PgOk)


/-! ## LocalSpec instance: FIFO -/

theorem localFifoSpec : LocalSpec LocalFifoMemory.engine LocalFifoMemory.psz
    LocalFifoMemory.residents (fun m => m.size) (fun _ => True) (fun _ => True)
    (fun _ _ => True) := by
  constructor
  · intro m; rfl
  · intro m pid; rfl
  · intro m; rfl
  · intro m; rfl
  · intro m _; trivial
  · intro m pg _; trivial
  · intro m pid pg hc
    simp only [LocalFifoMemory.engine] at hc
    rw [Option.map_eq_none'] at hc
    simp [LocalFifoMemory.psz, hc]
  · intro m pid pg hc
    simp only [LocalFifoMemory.engine] at hc
    cases hg : dictGet m.memory pid with
    | none => rw [hg] at hc; simp at hc
    | some loc =>
      rw [hg] at hc
      simp only [Option.map_some', Option.some.injEq] at hc
      have hm : pg ∈ loc := of_decide_eq_true hc
      exact ⟨m, by simp [LocalFifoMemory.engine, hg, hm]⟩
  · intro m pid pg h
    cases hg : dictGet m.memory pid with
    | none => simp [LocalFifoMemory.psz, hg]
    | some loc =>
      by_cases hm : pg ∈ loc <;>
        simp [LocalFifoMemory.engine, hg, hm] at h
  · intro m pid pg h
    cases hg : dictGet m.memory pid with
    | none => simp [LocalFifoMemory.engine, hg] at h
    | some loc =>
      by_cases hm : pg ∈ loc
      · simp [LocalFifoMemory.engine, hg, hm] at h
      · simp [LocalFifoMemory.engine, hg, hm]
  · intro m pid pg m' h
    cases hg : dictGet m.memory pid with
    | none => simp [LocalFifoMemory.engine, hg] at h
    | some loc =>
      by_cases hm : pg ∈ loc
      · simp only [LocalFifoMemory.engine, hg, if_pos hm] at h
        cases h
        refine ⟨fun q => rfl, rfl, rfl, fun _ => trivial, fun _ _ => trivial,
          loc.length, ?_, ?_⟩
        · simp [LocalFifoMemory.psz, hg]
        · exact List.length_pos_of_mem hm
      · simp [LocalFifoMemory.engine, hg, hm] at h
  · intro m pid n hpsz hn _
    simp only [LocalFifoMemory.psz] at hpsz
    cases hg : dictGet m.memory pid with
    | none => rw [hg] at hpsz; simp at hpsz
    | some loc =>
      rw [hg] at hpsz
      simp only [Option.map_some', Option.some.injEq] at hpsz
      cases hloc : loc with
      | nil => rw [hloc] at hpsz; simp at hpsz; omega
      | cons x t =>
        exact ⟨x, { m with memory := dictSet m.memory pid t },
          by simp [LocalFifoMemory.engine, hg, hloc]⟩
  · intro m pid v m' h
    cases hg : dictGet m.memory pid with
    | none => simp [LocalFifoMemory.engine, hg] at h
    | some loc =>
      cases hloc : loc with
      | nil => simp [LocalFifoMemory.engine, hg, hloc] at h
      | cons x t =>
        subst hloc
        simp only [LocalFifoMemory.engine, hg, Option.some.injEq, Prod.mk.injEq] at h
        obtain ⟨rfl, rfl⟩ := h
        refine ⟨⟨t.length + 1, ?_, ?_⟩, ?_, ?_, rfl, fun _ => trivial,
          fun _ _ => trivial, ?_⟩
        · simp [LocalFifoMemory.psz, hg]
        · simp [LocalFifoMemory.psz, dictGet_dictSet_self]
        · intro q hqq
          simp [LocalFifoMemory.psz, dictGet_dictSet_ne _ _ hqq]
        · have := localSum_dictSet List.length m.memory t hg
          simp only [LocalFifoMemory.residents]
          simp only [List.length_cons] at this
          omega
        · intro pg hc
          cases hgc : dictGet m.memory pid with
          | none => rw [hg] at hgc; cases hgc
          | some loc2 =>
            rw [hg] at hgc
            cases hgc
            simp only [LocalFifoMemory.engine, hg, Option.map_some',
              Option.some.injEq] at hc
            have hnm : pg ∉ x :: t := of_decide_eq_false hc
            simp only [List.mem_cons, not_or] at hnm
            simp [LocalFifoMemory.engine, dictGet_dictSet_self, hnm.2]
  · intro m pid pg hc _ _
    cases hg : dictGet m.memory pid with
    | none => simp [LocalFifoMemory.engine, hg] at hc
    | some loc =>
      exact ⟨{ m with memory := dictSet m.memory pid (loc ++ [pg]) },
        by simp [LocalFifoMemory.engine, hg]⟩
  · intro m pid pg m' h hc _
    cases hg : dictGet m.memory pid with
    | none => simp [LocalFifoMemory.engine, hg] at h
    | some loc =>
      simp only [LocalFifoMemory.engine, hg, Option.some.injEq] at h
      subst h
      refine ⟨⟨loc.length, ?_, ?_⟩, ?_, ?_, rfl, fun _ => trivial,
        fun _ _ => trivial⟩
      · simp [LocalFifoMemory.psz, hg]
      · simp [LocalFifoMemory.psz, dictGet_dictSet_self]
      · intro q hqq
        simp [LocalFifoMemory.psz, dictGet_dictSet_ne _ _ hqq]
      · have := localSum_dictSet List.length m.memory (loc ++ [pg]) hg
        simp only [LocalFifoMemory.residents]
        simp only [List.length_append, List.length_singleton] at this
        omega


/-! ## LocalSpec instance: LFU -/

theorem dict_length_pos_of_mem_keys {β : Type} {loc : Dict β} {pg : String}
    (h : pg ∈ dictKeys loc) : 1 ≤ loc.length := by
  have hp := List.length_pos_of_mem h
  simp only [dictKeys, List.length_map] at hp
  omega

theorem localLfuSpec : LocalSpec LocalLfuMemory.engine LocalLfuMemory.psz
    LocalLfuMemory.residents (fun m => m.size) (fun _ => True) (fun _ => True)
    (fun _ _ => True) := by
  constructor
  · intro m; rfl
  · intro m pid; rfl
  · intro m; rfl
  · intro m; rfl
  · intro m _; trivial
  · intro m pg _; trivial
  · intro m pid pg hc
    simp only [LocalLfuMemory.engine] at hc
    rw [Option.map_eq_none'] at hc
    simp [LocalLfuMemory.psz, hc]
  · intro m pid pg hc
    simp only [LocalLfuMemory.engine] at hc
    cases hg : dictGet m.memory pid with
    | none => rw [hg] at hc; simp at hc
    | some loc =>
      rw [hg] at hc
      simp only [Option.map_some', Option.some.injEq] at hc
      have hk : pg ∈ dictKeys loc := of_decide_eq_true hc
      obtain ⟨c, hgc⟩ := Option.isSome_iff_exists.1 (dictGet_isSome_of_mem_keys hk)
      exact ⟨{ m with memory := dictSet m.memory pid (dictSet loc pg (c + 1)) },
        by simp [LocalLfuMemory.engine, hg, hgc]⟩
  · intro m pid pg h
    cases hg : dictGet m.memory pid with
    | none => simp [LocalLfuMemory.psz, hg]
    | some loc =>
      cases hgc : dictGet loc pg <;>
        simp [LocalLfuMemory.engine, hg, hgc] at h
  · intro m pid pg h
    cases hg : dictGet m.memory pid with
    | none => simp [LocalLfuMemory.engine, hg] at h
    | some loc =>
      cases hgc : dictGet loc pg with
      | none =>
        have hk : pg ∉ dictKeys loc := by
          intro hk
          have := dictGet_isSome_of_mem_keys hk
          rw [hgc] at this
          simp at this
        simp [LocalLfuMemory.engine, hg, hk]
      | some c => simp [LocalLfuMemory.engine, hg, hgc] at h
  · intro m pid pg m' h
    cases hg : dictGet m.memory pid with
    | none => simp [LocalLfuMemory.engine, hg] at h
    | some loc =>
      cases hgc : dictGet loc pg with
      | none => simp [LocalLfuMemory.engine, hg, hgc] at h
      | some c =>
        simp only [LocalLfuMemory.engine, hg, hgc] at h
        cases h
        have hk : pg ∈ dictKeys loc := mem_dictKeys_of_dictGet hgc
        have hlen : (dictSet loc pg (c + 1)).length = loc.length :=
          length_dictSet_some _ hgc
        refine ⟨?_, ?_, rfl, fun _ => trivial, fun _ _ => trivial,
          loc.length, by simp [LocalLfuMemory.psz, hg], dict_length_pos_of_mem_keys hk⟩
        · intro q
          by_cases hqq : q = pid
          · subst hqq
            simp [LocalLfuMemory.psz, hg, dictGet_dictSet_self, hlen]
          · simp [LocalLfuMemory.psz, dictGet_dictSet_ne _ _ hqq]
        · have := localSum_dictSet List.length m.memory (dictSet loc pg (c + 1)) hg
          simp only [LocalLfuMemory.residents]
          omega
  · intro m pid n hpsz hn _
    simp only [LocalLfuMemory.psz] at hpsz
    cases hg : dictGet m.memory pid with
    | none => rw [hg] at hpsz; simp at hpsz
    | some loc =>
      rw [hg] at hpsz
      simp only [Option.map_some', Option.some.injEq] at hpsz
      cases hp : pyExtreme (fun acc y => y.2 < acc.2) loc with
      | none =>
        rw [pyExtreme_eq_none_iff] at hp
        rw [hp] at hpsz
        simp at hpsz
        omega
      | some p =>
        exact ⟨p.1, { m with memory := dictSet m.memory pid (dictDel loc p.1) },
          by simp [LocalLfuMemory.engine, hg, hp]⟩
  · intro m pid v m' h
    cases hg : dictGet m.memory pid with
    | none => simp [LocalLfuMemory.engine, hg] at h
    | some loc =>
      cases hp : pyExtreme (fun acc y => y.2 < acc.2) loc with
      | none => simp [LocalLfuMemory.engine, hg, hp] at h
      | some p =>
        simp only [LocalLfuMemory.engine, hg, hp, Option.some.injEq,
          Prod.mk.injEq] at h
        obtain ⟨rfl, rfl⟩ := h
        have hmem : p ∈ loc := pyExtreme_mem hp
        have hk : p.1 ∈ dictKeys loc := List.mem_map.2 ⟨p, hmem, rfl⟩
        obtain ⟨w, hgw⟩ := Option.isSome_iff_exists.1 (dictGet_isSome_of_mem_keys hk)
        have hdel := length_dictDel hgw
        refine ⟨⟨loc.length, by simp [LocalLfuMemory.psz, hg], ?_⟩, ?_, ?_, rfl,
          fun _ => trivial, fun _ _ => trivial, ?_⟩
        · have hlen : (dictDel loc p.1).length = loc.length - 1 := by omega
          simp [LocalLfuMemory.psz, dictGet_dictSet_self, hlen]
        · intro q hqq
          simp [LocalLfuMemory.psz, dictGet_dictSet_ne _ _ hqq]
        · have := localSum_dictSet List.length m.memory (dictDel loc p.1) hg
          simp only [LocalLfuMemory.residents]
          omega
        · intro pg hc
          simp only [LocalLfuMemory.engine, hg, Option.map_some',
            Option.some.injEq] at hc
          have hnk : pg ∉ dictKeys loc := of_decide_eq_false hc
          have hnd : pg ∉ dictKeys (dictDel loc p.1) :=
            fun h' => hnk (dictKeys_dictDel_sub h')
          simp [LocalLfuMemory.engine, dictGet_dictSet_self, hnd]
  · intro m pid pg hc _ _
    cases hg : dictGet m.memory pid with
    | none => simp [LocalLfuMemory.engine, hg] at hc
    | some loc =>
      exact ⟨{ m with memory := dictSet m.memory pid (dictSet loc pg 1) },
        by simp [LocalLfuMemory.engine, hg]⟩
  · intro m pid pg m' h hc _
    cases hg : dictGet m.memory pid with
    | none => simp [LocalLfuMemory.engine, hg] at h
    | some loc =>
      simp only [LocalLfuMemory.engine, hg, Option.some.injEq] at h
      subst h
      simp only [LocalLfuMemory.engine, hg, Option.map_some',
        Option.some.injEq] at hc
      have hnk : pg ∉ dictKeys loc := of_decide_eq_false hc
      have hgc : dictGet loc pg = none := dictGet_none_of_not_mem_keys hnk
      have hlen : (dictSet loc pg 1).length = loc.length + 1 :=
        length_dictSet_none _ hgc
      refine ⟨⟨loc.length, by simp [LocalLfuMemory.psz, hg], ?_⟩, ?_, ?_, rfl,
        fun _ => trivial, fun _ _ => trivial⟩
      · simp [LocalLfuMemory.psz, dictGet_dictSet_self, hlen]
      · intro q hqq
        simp [LocalLfuMemory.psz, dictGet_dictSet_ne _ _ hqq]
      · have := localSum_dictSet List.length m.memory (dictSet loc pg 1) hg
        simp only [LocalLfuMemory.residents]
        omega


/-! ## LocalSpec instance: LRU -/

theorem llru_tick_psz (m : LocalLruMemory) (pid : String) :
    LocalLruMemory.psz (LocalLruMemory.engine.tick m) pid =
      LocalLruMemory.psz m pid := by
  show ((dictGet (m.memory.map (fun p => (p.1, p.2.map (fun q => (q.1, q.2 + 1))))) pid).map
    List.length) = (dictGet m.memory pid).map List.length
  rw [dictGet_map_val]
  cases dictGet m.memory pid with
  | none => rfl
  | some loc => simp

theorem llru_tick_res (m : LocalLruMemory) :
    LocalLruMemory.residents (LocalLruMemory.engine.tick m) =
      LocalLruMemory.residents m := by
  show localSum List.length
      (m.memory.map (fun p => (p.1, p.2.map (fun q => (q.1, q.2 + 1))))) =
    localSum List.length m.memory
  rw [localSum_map_val]
  have hfun : (fun x : Dict Nat => List.length (x.map (fun q => (q.1, q.2 + 1)))) =
      List.length := funext (fun x => by simp)
  rw [hfun]

theorem localLruSpec : LocalSpec LocalLruMemory.engine LocalLruMemory.psz
    LocalLruMemory.residents (fun m => m.size) (fun _ => True) (fun _ => True)
    (fun _ _ => True) := by
  constructor
  · intro m; rfl
  · exact llru_tick_psz
  · exact llru_tick_res
  · intro m; rfl
  · intro m _; trivial
  · intro m pg _; trivial
  · intro m pid pg hc
    simp only [LocalLruMemory.engine] at hc
    rw [Option.map_eq_none'] at hc
    simp [LocalLruMemory.psz, hc]
  · intro m pid pg hc
    simp only [LocalLruMemory.engine] at hc
    cases hg : dictGet m.memory pid with
    | none => rw [hg] at hc; simp at hc
    | some loc =>
      rw [hg] at hc
      simp only [Option.map_some', Option.some.injEq] at hc
      have hk : pg ∈ dictKeys loc := of_decide_eq_true hc
      obtain ⟨c, hgc⟩ := Option.isSome_iff_exists.1 (dictGet_isSome_of_mem_keys hk)
      exact ⟨{ m with memory := dictSet m.memory pid (dictSet loc pg 0) },
        by simp [LocalLruMemory.engine, hg, hgc]⟩
  · intro m pid pg h
    cases hg : dictGet m.memory pid with
    | none => simp [LocalLruMemory.psz, hg]
    | some loc =>
      cases hgc : dictGet loc pg <;>
        simp [LocalLruMemory.engine, hg, hgc] at h
  · intro m pid pg h
    cases hg : dictGet m.memory pid with
    | none => simp [LocalLruMemory.engine, hg] at h
    | some loc =>
      cases hgc : dictGet loc pg with
      | none =>
        have hk : pg ∉ dictKeys loc := by
          intro hk
          have := dictGet_isSome_of_mem_keys hk
          rw [hgc] at this
          simp at this
        simp [LocalLruMemory.engine, hg, hk]
      | some c => simp [LocalLruMemory.engine, hg, hgc] at h
  · intro m pid pg m' h
    cases hg : dictGet m.memory pid with
    | none => simp [LocalLruMemory.engine, hg] at h
    | some loc =>
      cases hgc : dictGet loc pg with
      | none => simp [LocalLruMemory.engine, hg, hgc] at h
      | some c =>
        simp only [LocalLruMemory.engine, hg, hgc] at h
        cases h
        have hk : pg ∈ dictKeys loc := mem_dictKeys_of_dictGet hgc
        have hlen : (dictSet loc pg 0).length = loc.length :=
          length_dictSet_some _ hgc
        refine ⟨?_, ?_, rfl, fun _ => trivial, fun _ _ => trivial,
          loc.length, by simp [LocalLruMemory.psz, hg], dict_length_pos_of_mem_keys hk⟩
        · intro q
          by_cases hqq : q = pid
          · subst hqq
            simp [LocalLruMemory.psz, hg, dictGet_dictSet_self, hlen]
          · simp [LocalLruMemory.psz, dictGet_dictSet_ne _ _ hqq]
        · have := localSum_dictSet List.length m.memory (dictSet loc pg 0) hg
          simp only [LocalLruMemory.residents]
          omega
  · intro m pid n hpsz hn _
    simp only [LocalLruMemory.psz] at hpsz
    cases hg : dictGet m.memory pid with
    | none => rw [hg] at hpsz; simp at hpsz
    | some loc =>
      rw [hg] at hpsz
      simp only [Option.map_some', Option.some.injEq] at hpsz
      cases hp : pyExtreme (fun acc y => acc.2 < y.2) loc with
      | none =>
        rw [pyExtreme_eq_none_iff] at hp
        rw [hp] at hpsz
        simp at hpsz
        omega
      | some p =>
        exact ⟨p.1, { m with memory := dictSet m.memory pid (dictDel loc p.1) },
          by simp [LocalLruMemory.engine, hg, hp]⟩
  · intro m pid v m' h
    cases hg : dictGet m.memory pid with
    | none => simp [LocalLruMemory.engine, hg] at h
    | some loc =>
      cases hp : pyExtreme (fun acc y => acc.2 < y.2) loc with
      | none => simp [LocalLruMemory.engine, hg, hp] at h
      | some p =>
        simp only [LocalLruMemory.engine, hg, hp, Option.some.injEq,
          Prod.mk.injEq] at h
        obtain ⟨rfl, rfl⟩ := h
        have hmem : p ∈ loc := pyExtreme_mem hp
        have hk : p.1 ∈ dictKeys loc := List.mem_map.2 ⟨p, hmem, rfl⟩
        obtain ⟨w, hgw⟩ := Option.isSome_iff_exists.1 (dictGet_isSome_of_mem_keys hk)
        have hdel := length_dictDel hgw
        refine ⟨⟨loc.length, by simp [LocalLruMemory.psz, hg], ?_⟩, ?_, ?_, rfl,
          fun _ => trivial, fun _ _ => trivial, ?_⟩
        · have hlen : (dictDel loc p.1).length = loc.length - 1 := by omega
          simp [LocalLruMemory.psz, dictGet_dictSet_self, hlen]
        · intro q hqq
          simp [LocalLruMemory.psz, dictGet_dictSet_ne _ _ hqq]
        · have := localSum_dictSet List.length m.memory (dictDel loc p.1) hg
          simp only [LocalLruMemory.residents]
          omega
        · intro pg hc
          simp only [LocalLruMemory.engine, hg, Option.map_some',
            Option.some.injEq] at hc
          have hnk : pg ∉ dictKeys loc := of_decide_eq_false hc
          have hnd : pg ∉ dictKeys (dictDel loc p.1) :=
            fun h' => hnk (dictKeys_dictDel_sub h')
          simp [LocalLruMemory.engine, dictGet_dictSet_self, hnd]
  · intro m pid pg hc _ _
    cases hg : dictGet m.memory pid with
    | none => simp [LocalLruMemory.engine, hg] at hc
    | some loc =>
      exact ⟨{ m with memory := dictSet m.memory pid (dictSet loc pg 0) },
        by simp [LocalLruMemory.engine, hg]⟩
  · intro m pid pg m' h hc _
    cases hg : dictGet m.memory pid with
    | none => simp [LocalLruMemory.engine, hg] at h
    | some loc =>
      simp only [LocalLruMemory.engine, hg, Option.some.injEq] at h
      subst h
      simp only [LocalLruMemory.engine, hg, Option.map_some',
        Option.some.injEq] at hc
      have hnk : pg ∉ dictKeys loc := of_decide_eq_false hc
      have hgc : dictGet loc pg = none := dictGet_none_of_not_mem_keys hnk
      have hlen : (dictSet loc pg 0).length = loc.length + 1 :=
        length_dictSet_none _ hgc
      refine ⟨⟨loc.length, by simp [LocalLruMemory.psz, hg], ?_⟩, ?_, ?_, rfl,
        fun _ => trivial, fun _ _ => trivial⟩
      · simp [LocalLruMemory.psz, dictGet_dictSet_self, hlen]
      · intro q hqq
        simp [LocalLruMemory.psz, dictGet_dictSet_ne _ _ hqq]
      · have := localSum_dictSet List.length m.memory (dictSet loc pg 0) hg
        simp only [LocalLruMemory.residents]
        omega


/-! ## LocalSpec instance: Optimal -/

theorem mem_dictSet_cases {β : Type} {d : Dict β} {k : String} {v : β}
    {e : String × β} (h : e ∈ dictSet d k v) : e = (k, v) ∨ e ∈ d := by
  induction d with
  | nil =>
    simp only [dictSet, List.mem_singleton] at h
    exact Or.inl h
  | cons p rest ih =>
    by_cases hp : p.1 = k
    · simp only [dictSet, hp, if_true, List.mem_cons] at h
      rcases h with h | h
      · exact Or.inl h
      · exact Or.inr (List.mem_cons_of_mem _ h)
    · simp only [dictSet, hp, if_false, List.mem_cons] at h
      rcases h with h | h
      · exact Or.inr (h ▸ List.mem_cons_self _ _)
      · rcases ih h with h | h
        · exact Or.inl h
        · exact Or.inr (List.mem_cons_of_mem _ h)

theorem lopt_tick_keys (m : LocalOptMemory) (q : String)
    (h : q ∈ dictKeys m.pointers_count ∨ q ∈ m.pages) :
    q ∈ dictKeys (LocalOptMemory.tick m).pointers_count := by
  show q ∈ dictKeys (m.pages.foldl _ m.pointers_count)
  rw [tick_fold_eq]
  exact foldl_dictSet_keys _ _ _ _ h

theorem localOptSpec : LocalSpec LocalOptMemory.engine LocalOptMemory.psz
    LocalOptMemory.residents (fun m => m.size) LocalOptMemory.covered
    LocalOptMemory.covered2 LocalOptMemory.pgOk := by
  constructor
  · intro m; rfl
  · intro m pid; rfl
  · intro m; rfl
  · intro m; rfl
  · intro m hcov
    constructor
    · intro e he pg hpg
      exact lopt_tick_keys m pg (Or.inl (hcov e he pg hpg))
    · intro p hp
      exact lopt_tick_keys m p (Or.inr hp)
  · intro m pg h; exact h
  · intro m pid pg hc
    simp only [LocalOptMemory.engine] at hc
    rw [Option.map_eq_none'] at hc
    simp [LocalOptMemory.psz, hc]
  · intro m pid pg hc
    simp only [LocalOptMemory.engine] at hc
    cases hg : dictGet m.memory pid with
    | none => rw [hg] at hc; simp at hc
    | some loc =>
      rw [hg] at hc
      simp only [Option.map_some', Option.some.injEq] at hc
      have hm : pg ∈ loc := of_decide_eq_true hc
      exact ⟨m, by simp [LocalOptMemory.engine, hg, hm]⟩
  · intro m pid pg h
    cases hg : dictGet m.memory pid with
    | none => simp [LocalOptMemory.psz, hg]
    | some loc =>
      by_cases hm : pg ∈ loc <;>
        simp [LocalOptMemory.engine, hg, hm] at h
  · intro m pid pg h
    cases hg : dictGet m.memory pid with
    | none => simp [LocalOptMemory.engine, hg] at h
    | some loc =>
      by_cases hm : pg ∈ loc
      · simp [LocalOptMemory.engine, hg, hm] at h
      · simp [LocalOptMemory.engine, hg, hm]
  · intro m pid pg m' h
    cases hg : dictGet m.memory pid with
    | none => simp [LocalOptMemory.engine, hg] at h
    | some loc =>
      by_cases hm : pg ∈ loc
      · simp only [LocalOptMemory.engine, hg, if_pos hm] at h
        cases h
        exact ⟨fun q => rfl, rfl, rfl, fun h2 => h2.1, fun _ h => h,
          loc.length, by simp [LocalOptMemory.psz, hg], List.length_pos_of_mem hm⟩
      · simp [LocalOptMemory.engine, hg, hm] at h
  · intro m pid n hpsz hn hcov2
    simp only [LocalOptMemory.psz] at hpsz
    cases hg : dictGet m.memory pid with
    | none => rw [hg] at hpsz; simp at hpsz
    | some loc =>
      rw [hg] at hpsz
      simp only [Option.map_some', Option.some.injEq] at hpsz
      have hne : ∃ x, x ∈ loc := by
        cases hloc : loc with
        | nil => rw [hloc] at hpsz; simp at hpsz; omega
        | cons y t => exact ⟨y, hloc ▸ List.mem_cons_self y t⟩
      obtain ⟨x, hx⟩ := hne
      have hk : x ∈ dictKeys m.pointers_count :=
        hcov2.1 (pid, loc) (dictGet_mem hg) x hx
      obtain ⟨pr, hpr, hfst⟩ := List.mem_map.1 hk
      have hfil : pr ∈ m.pointers_count.filter (fun p => decide (p.1 ∈ loc)) :=
        List.mem_filter.2 ⟨hpr, by simp [hfst, hx]⟩
      cases hp : pyExtreme (fun acc y => distLt acc.2 y.2)
          (m.pointers_count.filter (fun p => decide (p.1 ∈ loc))) with
      | none =>
        rw [pyExtreme_eq_none_iff] at hp
        rw [hp] at hfil
        simp at hfil
      | some md =>
        exact ⟨md.1, { m with memory := dictSet m.memory pid (loc.erase md.1) },
          by simp [LocalOptMemory.engine, LocalOptMemory.swap, hg, hp]⟩
  · intro m pid v m' h
    simp only [LocalOptMemory.engine, LocalOptMemory.swap] at h
    cases hg : dictGet m.memory pid with
    | none => rw [hg] at h; simp at h
    | some loc =>
      simp only [hg] at h
      cases hp : pyExtreme (fun acc y => distLt acc.2 y.2)
          (m.pointers_count.filter (fun p => decide (p.1 ∈ loc))) with
      | none => rw [hp] at h; simp at h
      | some md =>
        rw [hp] at h
        simp only [Option.some.injEq, Prod.mk.injEq] at h
        obtain ⟨rfl, rfl⟩ := h
        have hmd := pyExtreme_mem hp
        have hmem : md.1 ∈ loc := by
          have := (List.mem_filter.1 hmd).2
          simpa using this
        have hlenpos : 0 < loc.length := List.length_pos_of_mem hmem
        have hlen := List.length_erase_of_mem hmem
        refine ⟨⟨loc.length, by simp [LocalOptMemory.psz, hg], ?_⟩, ?_, ?_, rfl,
          ?_, fun _ h => h, ?_⟩
        · simp [LocalOptMemory.psz, dictGet_dictSet_self, hlen]
        · intro q hqq
          simp [LocalOptMemory.psz, dictGet_dictSet_ne _ _ hqq]
        · have := localSum_dictSet List.length m.memory (loc.erase md.1) hg
          simp only [LocalOptMemory.residents]
          omega
        · intro h2
          refine ⟨?_, h2.2⟩
          intro e he pg hpg
          rcases mem_dictSet_cases he with rfl | he
          · exact h2.1 (pid, loc) (dictGet_mem hg) pg (List.mem_of_mem_erase hpg)
          · exact h2.1 e he pg hpg
        · intro pg hc
          simp only [LocalOptMemory.engine, hg, Option.map_some',
            Option.some.injEq] at hc
          have hnm : pg ∉ loc := of_decide_eq_false hc
          have hne : pg ∉ loc.erase md.1 := fun h' => hnm (List.mem_of_mem_erase h')
          simp [LocalOptMemory.engine, dictGet_dictSet_self, hne]
  · intro m pid pg hc _ _
    cases hg : dictGet m.memory pid with
    | none => simp [LocalOptMemory.engine, hg] at hc
    | some loc =>
      exact ⟨{ m with memory := dictSet m.memory pid (setAdd loc pg) },
        by simp [LocalOptMemory.engine, hg]⟩
  · intro m pid pg m' h hc hpg
    cases hg : dictGet m.memory pid with
    | none => simp [LocalOptMemory.engine, hg] at h
    | some loc =>
      simp only [LocalOptMemory.engine, hg, Option.some.injEq] at h
      subst h
      simp only [LocalOptMemory.engine, hg, Option.map_some',
        Option.some.injEq] at hc
      have hnm : pg ∉ loc := of_decide_eq_false hc
      refine ⟨⟨loc.length, by simp [LocalOptMemory.psz, hg], ?_⟩, ?_, ?_, rfl,
        ?_, fun _ h => h⟩
      · simp [LocalOptMemory.psz, dictGet_dictSet_self,
          length_setAdd_of_not_mem hnm]
      · intro q hqq
        simp [LocalOptMemory.psz, dictGet_dictSet_ne _ _ hqq]
      · have := localSum_dictSet List.length m.memory (setAdd loc pg) hg
        simp only [LocalOptMemory.residents]
        rw [length_setAdd_of_not_mem hnm] at this
        omega
      · intro h2
        intro e he q hq
        rcases mem_dictSet_cases he with rfl | he
        · rcases (mem_setAdd_iff loc pg q).1 hq with hq | hq
          · exact h2.1 (pid, loc) (dictGet_mem hg) q hq
          · exact hq ▸ h2.2 pg hpg
        · exact h2.1 e he q hq


/-! ## Extra allocation lemmas for the capacity claim -/

theorem gopt_alloc_res : ∀ (m : GlobalOptMemory) (pid pg : String) m',
    GlobalOptMemory.engine.allocate m pid pg = some m' →
    GlobalOptMemory.engine.contains m pid pg = some false →
    GlobalOptMemory.residents m' = GlobalOptMemory.residents m + 1 ∧
    m'.size = m.size := by
  intro m pid pg m' h hc
  simp only [GlobalOptMemory.engine, Option.some.injEq] at h hc
  subst h
  exact ⟨by simp [GlobalOptMemory.residents,
    length_setAdd_of_not_mem (of_decide_eq_false hc)], rfl⟩

theorem lopt_alloc_res : ∀ (m : LocalOptMemory) (pid pg : String) m',
    LocalOptMemory.engine.allocate m pid pg = some m' →
    LocalOptMemory.engine.contains m pid pg = some false →
    LocalOptMemory.residents m' = LocalOptMemory.residents m + 1 ∧
    m'.size = m.size := by
  intro m pid pg m' h hc
  cases hg : dictGet m.memory pid with
  | none => simp [LocalOptMemory.engine, hg] at h
  | some loc =>
    simp only [LocalOptMemory.engine, hg, Option.some.injEq] at h
    subst h
    simp only [LocalOptMemory.engine, hg, Option.map_some',
      Option.some.injEq] at hc
    have hnm : pg ∉ loc := of_decide_eq_false hc
    refine ⟨?_, rfl⟩
    have := localSum_dictSet List.length m.memory (setAdd loc pg) hg
    simp only [LocalOptMemory.residents]
    rw [length_setAdd_of_not_mem hnm] at this
    omega

/-! ## Claims -/

/-- C9: a `MemoryAccessor` built from `n` page numbers yields exactly those
page references, in order, on its first `n` `next()` calls, and the terminal
marker `none` on every later call — it never raises and never rewinds, and
once exhausted it stays exhausted permanently. -/
theorem claim_C9 : ∀ (pid : String) (pages : List Nat) (k : Nat),
    ((MemoryAccessor.make pid pages).nextIter k).next.2 =
      (pages.get? k).map (fun p => pid ++ toString p) ∧
    (pages.length ≤ k → ((MemoryAccessor.make pid pages).nextIter k).next.2 = none) := by
  intro pid pages k
  have h1 : ((MemoryAccessor.make pid pages).nextIter k).next.2 =
      (pages.get? k).map (fun p => pid ++ toString p) := by
    show ((MemoryAccessor.make pid pages).nextIter k).accesses.get?
      ((MemoryAccessor.make pid pages).nextIter k).calls = _
    rw [nextIter_accesses, nextIter_calls]
    show (pages.map _).get? (0 + k) = _
    rw [Nat.zero_add, List.get?_map]
  refine ⟨h1, fun hk => ?_⟩
  rw [h1, List.get?_eq_none.2 hk]
  rfl

theorem claim_C9_witness :
    ((MemoryAccessor.make "A" [1, 2]).nextIter 5).next.2 = none :=
  (claim_C9 "A" [1, 2] 5).2 (by decide)

/-- C10: for every engine and every set of accessors, the round-robin
`simulate` loop terminates: fuel equal to the pass measure always suffices,
because every pass strictly advances each unfinished accessor until it is
retired. -/
theorem claim_C10 : ∀ {σ : Type} (E : Engine σ) (s : SimState σ),
    simLoopFuel E (passMeasure s.accs) s ≠ SimResult.outOfFuel :=
  fun E s => simLoopFuel_no_outOfFuel E _ s (le_refl _)

/-- C3: for each of the eight engines, if `is_free` holds at the moment a
reference is processed (right after `tick`), the step's fault-counter
increment is zero — non-resident pages take the allocation path and resident
pages produce a hit. -/
theorem claim_C3 :
    (∀ (mem m' : GlobalOptMemory) (pid pg : String) o d,
      GlobalOptMemory.engine.is_free (GlobalOptMemory.engine.tick mem) = true →
      stepRef GlobalOptMemory.engine mem pid pg = some (m', o, d) → d = 0) ∧
    (∀ (mem m' : GlobalFifoMemory) (pid pg : String) o d,
      GlobalFifoMemory.engine.is_free (GlobalFifoMemory.engine.tick mem) = true →
      stepRef GlobalFifoMemory.engine mem pid pg = some (m', o, d) → d = 0) ∧
    (∀ (mem m' : GlobalLfuMemory) (pid pg : String) o d,
      GlobalLfuMemory.engine.is_free (GlobalLfuMemory.engine.tick mem) = true →
      stepRef GlobalLfuMemory.engine mem pid pg = some (m', o, d) → d = 0) ∧
    (∀ (mem m' : GlobalLruMemory) (pid pg : String) o d,
      GlobalLruMemory.engine.is_free (GlobalLruMemory.engine.tick mem) = true →
      stepRef GlobalLruMemory.engine mem pid pg = some (m', o, d) → d = 0) ∧
    (∀ (mem m' : LocalOptMemory) (pid pg : String) o d,
      LocalOptMemory.engine.is_free (LocalOptMemory.engine.tick mem) = true →
      stepRef LocalOptMemory.engine mem pid pg = some (m', o, d) → d = 0) ∧
    (∀ (mem m' : LocalFifoMemory) (pid pg : String) o d,
      LocalFifoMemory.engine.is_free (LocalFifoMemory.engine.tick mem) = true →
      stepRef LocalFifoMemory.engine mem pid pg = some (m', o, d) → d = 0) ∧
    (∀ (mem m' : LocalLfuMemory) (pid pg : String) o d,
      LocalLfuMemory.engine.is_free (LocalLfuMemory.engine.tick mem) = true →
      stepRef LocalLfuMemory.engine mem pid pg = some (m', o, d) → d = 0) ∧
    (∀ (mem m' : LocalLruMemory) (pid pg : String) o d,
      LocalLruMemory.engine.is_free (LocalLruMemory.engine.tick mem) = true →
      stepRef LocalLruMemory.engine mem pid pg = some (m', o, d) → d = 0) := by
  refine ⟨?_, ?_, ?_, ?_, ?_, ?_, ?_, ?_⟩ <;> intro mem m' pid pg o d hf h
  · exact stepRef_free_no_fault _ globalOptSpec.use_fault_contains hf h
  · exact stepRef_free_no_fault _ globalFifoSpec.use_fault_contains hf h
  · exact stepRef_free_no_fault _ globalLfuSpec.use_fault_contains hf h
  · exact stepRef_free_no_fault _ globalLruSpec.use_fault_contains hf h
  · exact stepRef_free_no_fault _ localOptSpec.use_fault_contains hf h
  · exact stepRef_free_no_fault _ localFifoSpec.use_fault_contains hf h
  · exact stepRef_free_no_fault _ localLfuSpec.use_fault_contains hf h
  · exact stepRef_free_no_fault _ localLruSpec.use_fault_contains hf h

theorem claim_C3_witness : (0 : Nat) = 0 :=
  claim_C3.2.1 ⟨1, []⟩ ⟨1, ["A1"]⟩ "A" "A1" Outcome.allocation 0
    (by decide) (by decide)

/-- C8: `allocate` is only ever invoked on a page that is not resident at
the moment of the call: the free-capacity path checks `contains` first, and
on the fault path the page faulted (so it was absent) and the eviction only
removes pages, so it is still absent when installed. -/
theorem claim_C8 :
    ((∀ (mem m' : GlobalOptMemory) (pid pg : String) d,
      stepRef GlobalOptMemory.engine mem pid pg = some (m', Outcome.allocation, d) →
      GlobalOptMemory.engine.contains (GlobalOptMemory.engine.tick mem) pid pg = some false) ∧
     (∀ (mem m' : GlobalOptMemory) (pid pg v : String) d,
      stepRef GlobalOptMemory.engine mem pid pg = some (m', Outcome.fault v, d) →
      ∃ m2, GlobalOptMemory.engine.swap (GlobalOptMemory.engine.tick mem) pid = some (v, m2) ∧
        GlobalOptMemory.engine.contains m2 pid pg = some false ∧
        GlobalOptMemory.engine.allocate m2 pid pg = some m')) ∧
    ((∀ (mem m' : GlobalFifoMemory) (pid pg : String) d,
      stepRef GlobalFifoMemory.engine mem pid pg = some (m', Outcome.allocation, d) →
      GlobalFifoMemory.engine.contains (GlobalFifoMemory.engine.tick mem) pid pg = some false) ∧
     (∀ (mem m' : GlobalFifoMemory) (pid pg v : String) d,
      stepRef GlobalFifoMemory.engine mem pid pg = some (m', Outcome.fault v, d) →
      ∃ m2, GlobalFifoMemory.engine.swap (GlobalFifoMemory.engine.tick mem) pid = some (v, m2) ∧
        GlobalFifoMemory.engine.contains m2 pid pg = some false ∧
        GlobalFifoMemory.engine.allocate m2 pid pg = some m')) ∧
    ((∀ (mem m' : GlobalLfuMemory) (pid pg : String) d,
      stepRef GlobalLfuMemory.engine mem pid pg = some (m', Outcome.allocation, d) →
      GlobalLfuMemory.engine.contains (GlobalLfuMemory.engine.tick mem) pid pg = some false) ∧
     (∀ (mem m' : GlobalLfuMemory) (pid pg v : String) d,
      stepRef GlobalLfuMemory.engine mem pid pg = some (m', Outcome.fault v, d) →
      ∃ m2, GlobalLfuMemory.engine.swap (GlobalLfuMemory.engine.tick mem) pid = some (v, m2) ∧
        GlobalLfuMemory.engine.contains m2 pid pg = some false ∧
        GlobalLfuMemory.engine.allocate m2 pid pg = some m')) ∧
    ((∀ (mem m' : GlobalLruMemory) (pid pg : String) d,
      stepRef GlobalLruMemory.engine mem pid pg = some (m', Outcome.allocation, d) →
      GlobalLruMemory.engine.contains (GlobalLruMemory.engine.tick mem) pid pg = some false) ∧
     (∀ (mem m' : GlobalLruMemory) (pid pg v : String) d,
      stepRef GlobalLruMemory.engine mem pid pg = some (m', Outcome.fault v, d) →
      ∃ m2, GlobalLruMemory.engine.swap (GlobalLruMemory.engine.tick mem) pid = some (v, m2) ∧
        GlobalLruMemory.engine.contains m2 pid pg = some false ∧
        GlobalLruMemory.engine.allocate m2 pid pg = some m')) ∧
    ((∀ (mem m' : LocalOptMemory) (pid pg : String) d,
      stepRef LocalOptMemory.engine mem pid pg = some (m', Outcome.allocation, d) →
      LocalOptMemory.engine.contains (LocalOptMemory.engine.tick mem) pid pg = some false) ∧
     (∀ (mem m' : LocalOptMemory) (pid pg v : String) d,
      stepRef LocalOptMemory.engine mem pid pg = some (m', Outcome.fault v, d) →
      ∃ m2, LocalOptMemory.engine.swap (LocalOptMemory.engine.tick mem) pid = some (v, m2) ∧
        LocalOptMemory.engine.contains m2 pid pg = some false ∧
        LocalOptMemory.engine.allocate m2 pid pg = some m')) ∧
    ((∀ (mem m' : LocalFifoMemory) (pid pg : String) d,
      stepRef LocalFifoMemory.engine mem pid pg = some (m', Outcome.allocation, d) →
      LocalFifoMemory.engine.contains (LocalFifoMemory.engine.tick mem) pid pg = some false) ∧
     (∀ (mem m' : LocalFifoMemory) (pid pg v : String) d,
      stepRef LocalFifoMemory.engine mem pid pg = some (m', Outcome.fault v, d) →
      ∃ m2, LocalFifoMemory.engine.swap (LocalFifoMemory.engine.tick mem) pid = some (v, m2) ∧
        LocalFifoMemory.engine.contains m2 pid pg = some false ∧
        LocalFifoMemory.engine.allocate m2 pid pg = some m')) ∧
    ((∀ (mem m' : LocalLfuMemory) (pid pg : String) d,
      stepRef LocalLfuMemory.engine mem pid pg = some (m', Outcome.allocation, d) →
      LocalLfuMemory.engine.contains (LocalLfuMemory.engine.tick mem) pid pg = some false) ∧
     (∀ (mem m' : LocalLfuMemory) (pid pg v : String) d,
      stepRef LocalLfuMemory.engine mem pid pg = some (m', Outcome.fault v, d) →
      ∃ m2, LocalLfuMemory.engine.swap (LocalLfuMemory.engine.tick mem) pid = some (v, m2) ∧
        LocalLfuMemory.engine.contains m2 pid pg = some false ∧
        LocalLfuMemory.engine.allocate m2 pid pg = some m')) ∧
    ((∀ (mem m' : LocalLruMemory) (pid pg : String) d,
      stepRef LocalLruMemory.engine mem pid pg = some (m', Outcome.allocation, d) →
      LocalLruMemory.engine.contains (LocalLruMemory.engine.tick mem) pid pg = some false) ∧
     (∀ (mem m' : LocalLruMemory) (pid pg v : String) d,
      stepRef LocalLruMemory.engine mem pid pg = some (m', Outcome.fault v, d) →
      ∃ m2, LocalLruMemory.engine.swap (LocalLruMemory.engine.tick mem) pid = some (v, m2) ∧
        LocalLruMemory.engine.contains m2 pid pg = some false ∧
        LocalLruMemory.engine.allocate m2 pid pg = some m')) := by
  refine ⟨⟨?_, ?_⟩, ⟨?_, ?_⟩, ⟨?_, ?_⟩, ⟨?_, ?_⟩, ⟨?_, ?_⟩, ⟨?_, ?_⟩, ⟨?_, ?_⟩, ⟨?_, ?_⟩⟩
  · intro mem m' pid pg d h; exact stepRef_alloc_fresh _ h
  · intro mem m' pid pg v d h
    exact stepRef_fault_fresh _ globalOptSpec.use_fault_contains
      (fun m pid v m' hs => (globalOptSpec.swap_facts m pid v m' hs).2.2.2.2) h
  · intro mem m' pid pg d h; exact stepRef_alloc_fresh _ h
  · intro mem m' pid pg v d h
    exact stepRef_fault_fresh _ globalFifoSpec.use_fault_contains
      (fun m pid v m' hs => (globalFifoSpec.swap_facts m pid v m' hs).2.2.2.2) h
  · intro mem m' pid pg d h; exact stepRef_alloc_fresh _ h
  · intro mem m' pid pg v d h
    exact stepRef_fault_fresh _ globalLfuSpec.use_fault_contains
      (fun m pid v m' hs => (globalLfuSpec.swap_facts m pid v m' hs).2.2.2.2) h
  · intro mem m' pid pg d h; exact stepRef_alloc_fresh _ h
  · intro mem m' pid pg v d h
    exact stepRef_fault_fresh _ globalLruSpec.use_fault_contains
      (fun m pid v m' hs => (globalLruSpec.swap_facts m pid v m' hs).2.2.2.2) h
  · intro mem m' pid pg d h; exact stepRef_alloc_fresh _ h
  · intro mem m' pid pg v d h
    exact stepRef_fault_fresh _ localOptSpec.use_fault_contains
      (fun m pid v m' hs => (localOptSpec.swap_facts m pid v m' hs).2.2.2.2.2.2) h
  · intro mem m' pid pg d h; exact stepRef_alloc_fresh _ h
  · intro mem m' pid pg v d h
    exact stepRef_fault_fresh _ localFifoSpec.use_fault_contains
      (fun m pid v m' hs => (localFifoSpec.swap_facts m pid v m' hs).2.2.2.2.2.2) h
  · intro mem m' pid pg d h; exact stepRef_alloc_fresh _ h
  · intro mem m' pid pg v d h
    exact stepRef_fault_fresh _ localLfuSpec.use_fault_contains
      (fun m pid v m' hs => (localLfuSpec.swap_facts m pid v m' hs).2.2.2.2.2.2) h
  · intro mem m' pid pg d h; exact stepRef_alloc_fresh _ h
  · intro mem m' pid pg v d h
    exact stepRef_fault_fresh _ localLruSpec.use_fault_contains
      (fun m pid v m' hs => (localLruSpec.swap_facts m pid v m' hs).2.2.2.2.2.2) h

theorem claim_C8_witness :
    GlobalFifoMemory.engine.contains
      (GlobalFifoMemory.engine.tick ⟨1, []⟩) "A" "A1" = some false :=
  claim_C8.2.1.1 ⟨1, []⟩ ⟨1, ["A1"]⟩ "A" "A1" 0 (by decide)


/-- C1: for each of the eight policy/scope engines, at every point of a run
(any state reachable by `simulate` steps from a state within capacity, in
particular a fresh engine) the total number of resident pages — summed over
all per-process partitions for local engines — is at most the configured
capacity `size`. -/
theorem claim_C1 :
    (∀ (m0 m : GlobalOptMemory), Reach GlobalOptMemory.engine m0 m →
      m0.residents ≤ m0.size → m.residents ≤ m.size) ∧
    (∀ (m0 m : GlobalFifoMemory), Reach GlobalFifoMemory.engine m0 m →
      m0.residents ≤ m0.size → m.residents ≤ m.size) ∧
    (∀ (m0 m : GlobalLfuMemory), Reach GlobalLfuMemory.engine m0 m →
      m0.residents ≤ m0.size → m.residents ≤ m.size) ∧
    (∀ (m0 m : GlobalLruMemory), Reach GlobalLruMemory.engine m0 m →
      m0.residents ≤ m0.size → m.residents ≤ m.size) ∧
    (∀ (m0 m : LocalOptMemory), Reach LocalOptMemory.engine m0 m →
      m0.residents ≤ m0.size → m.residents ≤ m.size) ∧
    (∀ (m0 m : LocalFifoMemory), Reach LocalFifoMemory.engine m0 m →
      m0.residents ≤ m0.size → m.residents ≤ m.size) ∧
    (∀ (m0 m : LocalLfuMemory), Reach LocalLfuMemory.engine m0 m →
      m0.residents ≤ m0.size → m.residents ≤ m.size) ∧
    (∀ (m0 m : LocalLruMemory), Reach LocalLruMemory.engine m0 m →
      m0.residents ≤ m0.size → m.residents ≤ m.size) := by
  refine ⟨?_, ?_, ?_, ?_, ?_, ?_, ?_, ?_⟩ <;> intro m0 m hr h0
  · exact reach_capacity GlobalOptMemory.engine GlobalOptMemory.residents
      (fun m => m.size) globalOptSpec.is_free_def globalOptSpec.tick_res
      globalOptSpec.tick_size
      (fun m pid pg m' hu => ⟨(globalOptSpec.use_ok_facts m pid pg m' hu).1,
        (globalOptSpec.use_ok_facts m pid pg m' hu).2.1⟩)
      globalOptSpec.use_fault_contains
      (fun m pid v m' hs => ⟨(globalOptSpec.swap_facts m pid v m' hs).1,
        (globalOptSpec.swap_facts m pid v m' hs).2.1,
        (globalOptSpec.swap_facts m pid v m' hs).2.2.2.2⟩)
      gopt_alloc_res hr h0
  · exact reach_capacity GlobalFifoMemory.engine GlobalFifoMemory.residents
      (fun m => m.size) globalFifoSpec.is_free_def globalFifoSpec.tick_res
      globalFifoSpec.tick_size
      (fun m pid pg m' hu => ⟨(globalFifoSpec.use_ok_facts m pid pg m' hu).1,
        (globalFifoSpec.use_ok_facts m pid pg m' hu).2.1⟩)
      globalFifoSpec.use_fault_contains
      (fun m pid v m' hs => ⟨(globalFifoSpec.swap_facts m pid v m' hs).1,
        (globalFifoSpec.swap_facts m pid v m' hs).2.1,
        (globalFifoSpec.swap_facts m pid v m' hs).2.2.2.2⟩)
      (fun m pid pg m' ha hc =>
        ⟨(globalFifoSpec.alloc_facts m pid pg m' ha hc trivial).1,
         (globalFifoSpec.alloc_facts m pid pg m' ha hc trivial).2.1⟩) hr h0
  · exact reach_capacity GlobalLfuMemory.engine GlobalLfuMemory.residents
      (fun m => m.size) globalLfuSpec.is_free_def globalLfuSpec.tick_res
      globalLfuSpec.tick_size
      (fun m pid pg m' hu => ⟨(globalLfuSpec.use_ok_facts m pid pg m' hu).1,
        (globalLfuSpec.use_ok_facts m pid pg m' hu).2.1⟩)
      globalLfuSpec.use_fault_contains
      (fun m pid v m' hs => ⟨(globalLfuSpec.swap_facts m pid v m' hs).1,
        (globalLfuSpec.swap_facts m pid v m' hs).2.1,
        (globalLfuSpec.swap_facts m pid v m' hs).2.2.2.2⟩)
      (fun m pid pg m' ha hc =>
        ⟨(globalLfuSpec.alloc_facts m pid pg m' ha hc trivial).1,
         (globalLfuSpec.alloc_facts m pid pg m' ha hc trivial).2.1⟩) hr h0
  · exact reach_capacity GlobalLruMemory.engine GlobalLruMemory.residents
      (fun m => m.size) globalLruSpec.is_free_def globalLruSpec.tick_res
      globalLruSpec.tick_size
      (fun m pid pg m' hu => ⟨(globalLruSpec.use_ok_facts m pid pg m' hu).1,
        (globalLruSpec.use_ok_facts m pid pg m' hu).2.1⟩)
      globalLruSpec.use_fault_contains
      (fun m pid v m' hs => ⟨(globalLruSpec.swap_facts m pid v m' hs).1,
        (globalLruSpec.swap_facts m pid v m' hs).2.1,
        (globalLruSpec.swap_facts m pid v m' hs).2.2.2.2⟩)
      (fun m pid pg m' ha hc =>
        ⟨(globalLruSpec.alloc_facts m pid pg m' ha hc trivial).1,
         (globalLruSpec.alloc_facts m pid pg m' ha hc trivial).2.1⟩) hr h0
  · exact reach_capacity LocalOptMemory.engine LocalOptMemory.residents
      (fun m => m.size) localOptSpec.is_free_def localOptSpec.tick_res
      localOptSpec.tick_size
      (fun m pid pg m' hu => ⟨(localOptSpec.use_ok_facts m pid pg m' hu).2.1,
        (localOptSpec.use_ok_facts m pid pg m' hu).2.2.1⟩)
      localOptSpec.use_fault_contains
      (fun m pid v m' hs => ⟨(localOptSpec.swap_facts m pid v m' hs).2.2.1,
        (localOptSpec.swap_facts m pid v m' hs).2.2.2.1,
        (localOptSpec.swap_facts m pid v m' hs).2.2.2.2.2.2⟩)
      lopt_alloc_res hr h0
  · exact reach_capacity LocalFifoMemory.engine LocalFifoMemory.residents
      (fun m => m.size) localFifoSpec.is_free_def localFifoSpec.tick_res
      localFifoSpec.tick_size
      (fun m pid pg m' hu => ⟨(localFifoSpec.use_ok_facts m pid pg m' hu).2.1,
        (localFifoSpec.use_ok_facts m pid pg m' hu).2.2.1⟩)
      localFifoSpec.use_fault_contains
      (fun m pid v m' hs => ⟨(localFifoSpec.swap_facts m pid v m' hs).2.2.1,
        (localFifoSpec.swap_facts m pid v m' hs).2.2.2.1,
        (localFifoSpec.swap_facts m pid v m' hs).2.2.2.2.2.2⟩)
      (fun m pid pg m' ha hc =>
        ⟨(localFifoSpec.alloc_facts m pid pg m' ha hc trivial).2.2.1,
         (localFifoSpec.alloc_facts m pid pg m' ha hc trivial).2.2.2.1⟩) hr h0
  · exact reach_capacity LocalLfuMemory.engine LocalLfuMemory.residents
      (fun m => m.size) localLfuSpec.is_free_def localLfuSpec.tick_res
      localLfuSpec.tick_size
      (fun m pid pg m' hu => ⟨(localLfuSpec.use_ok_facts m pid pg m' hu).2.1,
        (localLfuSpec.use_ok_facts m pid pg m' hu).2.2.1⟩)
      localLfuSpec.use_fault_contains
      (fun m pid v m' hs => ⟨(localLfuSpec.swap_facts m pid v m' hs).2.2.1,
        (localLfuSpec.swap_facts m pid v m' hs).2.2.2.1,
        (localLfuSpec.swap_facts m pid v m' hs).2.2.2.2.2.2⟩)
      (fun m pid pg m' ha hc =>
        ⟨(localLfuSpec.alloc_facts m pid pg m' ha hc trivial).2.2.1,
         (localLfuSpec.alloc_facts m pid pg m' ha hc trivial).2.2.2.1⟩) hr h0
  · exact reach_capacity LocalLruMemory.engine LocalLruMemory.residents
      (fun m => m.size) localLruSpec.is_free_def localLruSpec.tick_res
      localLruSpec.tick_size
      (fun m pid pg m' hu => ⟨(localLruSpec.use_ok_facts m pid pg m' hu).2.1,
        (localLruSpec.use_ok_facts m pid pg m' hu).2.2.1⟩)
      localLruSpec.use_fault_contains
      (fun m pid v m' hs => ⟨(localLruSpec.swap_facts m pid v m' hs).2.2.1,
        (localLruSpec.swap_facts m pid v m' hs).2.2.2.1,
        (localLruSpec.swap_facts m pid v m' hs).2.2.2.2.2.2⟩)
      (fun m pid pg m' ha hc =>
        ⟨(localLruSpec.alloc_facts m pid pg m' ha hc trivial).2.2.1,
         (localLruSpec.alloc_facts m pid pg m' ha hc trivial).2.2.2.1⟩) hr h0

theorem claim_C1_witness :
    GlobalFifoMemory.residents ⟨1, ["A1"]⟩ ≤ (⟨1, ["A1"]⟩ : GlobalFifoMemory).size :=
  claim_C1.2.1 ⟨1, []⟩ ⟨1, ["A1"]⟩
    (Reach.step (Reach.refl _)
      (show stepRef GlobalFifoMemory.engine ⟨1, []⟩ "A" "A1" =
        some (⟨1, ["A1"]⟩, Outcome.allocation, 0) by decide))
    (by decide)


/-- C2: for the four local-scope engines, an eviction triggered for process
`pid` removes a page of `pid`'s own partition and leaves every other
process's partition untouched, while the free-capacity test `is_free` is
evaluated over the total residents across all partitions. -/
theorem claim_C2 :
    (∀ (m m' : LocalOptMemory) (pid v : String),
      LocalOptMemory.engine.swap m pid = some (v, m') →
      ∃ loc, dictGet m.memory pid = some loc ∧ v ∈ loc ∧
        dictGet m'.memory pid = some (loc.erase v) ∧
        ∀ q, q ≠ pid → dictGet m'.memory q = dictGet m.memory q) ∧
    (∀ (m m' : LocalFifoMemory) (pid v : String),
      LocalFifoMemory.engine.swap m pid = some (v, m') →
      ∃ loc, dictGet m.memory pid = some loc ∧ v ∈ loc ∧
        dictGet m'.memory pid = some (loc.erase v) ∧
        ∀ q, q ≠ pid → dictGet m'.memory q = dictGet m.memory q) ∧
    (∀ (m m' : LocalLfuMemory) (pid v : String),
      LocalLfuMemory.engine.swap m pid = some (v, m') →
      ∃ loc, dictGet m.memory pid = some loc ∧ v ∈ dictKeys loc ∧
        dictGet m'.memory pid = some (dictDel loc v) ∧
        ∀ q, q ≠ pid → dictGet m'.memory q = dictGet m.memory q) ∧
    (∀ (m m' : LocalLruMemory) (pid v : String),
      LocalLruMemory.engine.swap m pid = some (v, m') →
      ∃ loc, dictGet m.memory pid = some loc ∧ v ∈ dictKeys loc ∧
        dictGet m'.memory pid = some (dictDel loc v) ∧
        ∀ q, q ≠ pid → dictGet m'.memory q = dictGet m.memory q) ∧
    (∀ m : LocalOptMemory,
      LocalOptMemory.engine.is_free m = decide (m.residents < m.size)) ∧
    (∀ m : LocalFifoMemory,
      LocalFifoMemory.engine.is_free m = decide (m.residents < m.size)) ∧
    (∀ m : LocalLfuMemory,
      LocalLfuMemory.engine.is_free m = decide (m.residents < m.size)) ∧
    (∀ m : LocalLruMemory,
      LocalLruMemory.engine.is_free m = decide (m.residents < m.size)) := by
  refine ⟨?_, ?_, ?_, ?_, fun _ => rfl, fun _ => rfl, fun _ => rfl, fun _ => rfl⟩
  · intro m m' pid v h
    simp only [LocalOptMemory.engine, LocalOptMemory.swap] at h
    cases hg : dictGet m.memory pid with
    | none => rw [hg] at h; simp at h
    | some loc =>
      simp only [hg] at h
      cases hp : pyExtreme (fun acc y => distLt acc.2 y.2)
          (m.pointers_count.filter (fun p => decide (p.1 ∈ loc))) with
      | none => rw [hp] at h; simp at h
      | some md =>
        rw [hp] at h
        simp only [Option.some.injEq, Prod.mk.injEq] at h
        obtain ⟨rfl, rfl⟩ := h
        have hmem : md.1 ∈ loc := by
          have := (List.mem_filter.1 (pyExtreme_mem hp)).2
          simpa using this
        exact ⟨loc, rfl, hmem, by simp [dictGet_dictSet_self],
          fun q hq => by simp [dictGet_dictSet_ne _ _ hq]⟩
  · intro m m' pid v h
    cases hg : dictGet m.memory pid with
    | none => simp [LocalFifoMemory.engine, hg] at h
    | some loc =>
      cases hloc : loc with
      | nil => simp [LocalFifoMemory.engine, hg, hloc] at h
      | cons x t =>
        subst hloc
        simp only [LocalFifoMemory.engine, hg, Option.some.injEq,
          Prod.mk.injEq] at h
        obtain ⟨rfl, rfl⟩ := h
        refine ⟨x :: t, rfl, List.mem_cons_self _ _, ?_,
          fun q hq => by simp [dictGet_dictSet_ne _ _ hq]⟩
        rw [List.erase_cons_head]
        simp [dictGet_dictSet_self]
  · intro m m' pid v h
    cases hg : dictGet m.memory pid with
    | none => simp [LocalLfuMemory.engine, hg] at h
    | some loc =>
      cases hp : pyExtreme (fun acc y => y.2 < acc.2) loc with
      | none => simp [LocalLfuMemory.engine, hg, hp] at h
      | some p =>
        simp only [LocalLfuMemory.engine, hg, hp, Option.some.injEq,
          Prod.mk.injEq] at h
        obtain ⟨rfl, rfl⟩ := h
        exact ⟨loc, rfl, List.mem_map.2 ⟨p, pyExtreme_mem hp, rfl⟩,
          by simp [dictGet_dictSet_self],
          fun q hq => by simp [dictGet_dictSet_ne _ _ hq]⟩
  · intro m m' pid v h
    cases hg : dictGet m.memory pid with
    | none => simp [LocalLruMemory.engine, hg] at h
    | some loc =>
      cases hp : pyExtreme (fun acc y => acc.2 < y.2) loc with
      | none => simp [LocalLruMemory.engine, hg, hp] at h
      | some p =>
        simp only [LocalLruMemory.engine, hg, hp, Option.some.injEq,
          Prod.mk.injEq] at h
        obtain ⟨rfl, rfl⟩ := h
        exact ⟨loc, rfl, List.mem_map.2 ⟨p, pyExtreme_mem hp, rfl⟩,
          by simp [dictGet_dictSet_self],
          fun q hq => by simp [dictGet_dictSet_ne _ _ hq]⟩

theorem claim_C2_witness :
    ∃ loc, dictGet ((⟨2, [("A", ["A1"]), ("B", ["B1"])]⟩ : LocalFifoMemory)).memory "A" = some loc ∧
      "A1" ∈ loc ∧
      dictGet ((⟨2, [("A", []), ("B", ["B1"])]⟩ : LocalFifoMemory)).memory "A" =
        some (loc.erase "A1") ∧
      ∀ q, q ≠ "A" →
        dictGet ((⟨2, [("A", []), ("B", ["B1"])]⟩ : LocalFifoMemory)).memory q =
          dictGet ((⟨2, [("A", ["A1"]), ("B", ["B1"])]⟩ : LocalFifoMemory)).memory q :=
  claim_C2.2.1 ⟨2, [("A", ["A1"]), ("B", ["B1"])]⟩ ⟨2, [("A", []), ("B", ["B1"])]⟩
    "A" "A1" (by decide)

/-- C6: FIFO evicts the earliest-installed eligible resident — `swap` pops
the head of the installation queue and `allocate` appends at the tail — and
on the capacity-1 workload A1, B1, A2 the run allocates A1, then faults
evicting A1, then faults evicting B1, for 2 faults. -/
theorem claim_C6 :
    (∀ (m : GlobalFifoMemory) (pid h' : String) (t : List String),
      m.memory = h' :: t →
      GlobalFifoMemory.engine.swap m pid = some (h', { m with memory := t })) ∧
    (∀ (m m' : GlobalFifoMemory) (pid pg : String),
      GlobalFifoMemory.engine.allocate m pid pg = some m' →
      m'.memory = m.memory ++ [pg]) ∧
    simulate GlobalFifoMemory.engine 10
      [MemoryAccessor.make "A" [1, 2], MemoryAccessor.make "B" [1]] ⟨1, []⟩ =
      SimResult.ok 2
        [("A", "A1", Outcome.allocation), ("B", "B1", Outcome.fault "A1"),
         ("A", "A2", Outcome.fault "B1")] ⟨1, ["A2"]⟩ := by
  refine ⟨?_, ?_, by decide⟩
  · intro m pid h' t hm
    simp [GlobalFifoMemory.engine, hm]
  · intro m m' pid pg h
    simp only [GlobalFifoMemory.engine, Option.some.injEq] at h
    subst h
    rfl

theorem claim_C6_witness :
    GlobalFifoMemory.engine.swap ⟨1, ["A1"]⟩ "A" =
      some ("A1", (⟨1, []⟩ : GlobalFifoMemory)) :=
  claim_C6.1 ⟨1, ["A1"]⟩ "A" "A1" [] rfl


/-! ## Ordering facts for the extremum arguments -/

theorem distLt_irrefl (d : Dist) : distLt d d = false := by
  cases d <;> simp [distLt]

theorem distLt_h2 (r y a : Dist) (h1 : distLt r y = false)
    (h2 : distLt a y = true) : distLt r a = false := by
  cases r <;> cases y <;> cases a <;> simp_all [distLt] <;> omega

theorem distLt_h3 (r a y : Dist) (h1 : distLt r a = false)
    (h2 : distLt a y = false) : distLt r y = false := by
  cases r <;> cases y <;> cases a <;> simp_all [distLt] <;> omega

theorem distLt_inf_eq {d : Dist} (h : distLt d Dist.inf = false) : d = Dist.inf := by
  cases d <;> simp_all [distLt]

/-- C4: the Optimal policy (either scope) evicts the resident that is never
referenced again: if eligible resident `P` has next-use distance `inf` and
every other eligible resident has a finite distance, `swap` selects `P`,
whatever the iteration order of the distance table and of the residents. -/
theorem claim_C4 :
    (∀ (m : GlobalOptMemory) (pid P : String),
      (P, Dist.inf) ∈ m.pointers_count → P ∈ m.memory →
      (∀ q dq, (q, dq) ∈ m.pointers_count → q ∈ m.memory → q ≠ P →
        ∃ n, dq = Dist.fin n) →
      ∃ m', GlobalOptMemory.engine.swap m pid = some (P, m')) ∧
    (∀ (m : LocalOptMemory) (pid P : String) (loc : List String),
      dictGet m.memory pid = some loc →
      (P, Dist.inf) ∈ m.pointers_count → P ∈ loc →
      (∀ q dq, (q, dq) ∈ m.pointers_count → q ∈ loc → q ≠ P →
        ∃ n, dq = Dist.fin n) →
      ∃ m', LocalOptMemory.engine.swap m pid = some (P, m')) := by
  constructor
  · intro m pid P hPinf hPmem hfin
    have hfil : (P, Dist.inf) ∈
        m.pointers_count.filter (fun p => decide (p.1 ∈ m.memory)) :=
      List.mem_filter.2 ⟨hPinf, by simp [hPmem]⟩
    cases hp : pyExtreme (fun acc y => distLt acc.2 y.2)
        (m.pointers_count.filter (fun p => decide (p.1 ∈ m.memory))) with
    | none =>
      rw [pyExtreme_eq_none_iff] at hp
      rw [hp] at hfil
      simp at hfil
    | some md =>
      have hbest := pyExtreme_best (fun a => distLt_irrefl a.2)
        (fun r y a h1 h2 => distLt_h2 r.2 y.2 a.2 h1 h2)
        (fun r a y h1 h2 => distLt_h3 r.2 a.2 y.2 h1 h2) hp (P, Dist.inf) hfil
      have hmdinf : md.2 = Dist.inf := distLt_inf_eq hbest
      have hmdmem := List.mem_filter.1 (pyExtreme_mem hp)
      have hmd1 : md.1 ∈ m.memory := by
        have := hmdmem.2
        simpa using this
      have hmdP : md.1 = P := by
        by_contra hne
        obtain ⟨n, hn⟩ := hfin md.1 md.2 (by
          have := hmdmem.1
          simpa using this) hmd1 hne
        rw [hmdinf] at hn
        cases hn
      refine ⟨{ m with memory := m.memory.erase md.1 }, ?_⟩
      simp [GlobalOptMemory.engine, GlobalOptMemory.swap, hp, hmdP]
  · intro m pid P loc hg hPinf hPmem hfin
    have hfil : (P, Dist.inf) ∈
        m.pointers_count.filter (fun p => decide (p.1 ∈ loc)) :=
      List.mem_filter.2 ⟨hPinf, by simp [hPmem]⟩
    cases hp : pyExtreme (fun acc y => distLt acc.2 y.2)
        (m.pointers_count.filter (fun p => decide (p.1 ∈ loc))) with
    | none =>
      rw [pyExtreme_eq_none_iff] at hp
      rw [hp] at hfil
      simp at hfil
    | some md =>
      have hbest := pyExtreme_best (fun a => distLt_irrefl a.2)
        (fun r y a h1 h2 => distLt_h2 r.2 y.2 a.2 h1 h2)
        (fun r a y h1 h2 => distLt_h3 r.2 a.2 y.2 h1 h2) hp (P, Dist.inf) hfil
      have hmdinf : md.2 = Dist.inf := distLt_inf_eq hbest
      have hmdmem := List.mem_filter.1 (pyExtreme_mem hp)
      have hmd1 : md.1 ∈ loc := by
        have := hmdmem.2
        simpa using this
      have hmdP : md.1 = P := by
        by_contra hne
        obtain ⟨n, hn⟩ := hfin md.1 md.2 (by
          have := hmdmem.1
          simpa using this) hmd1 hne
        rw [hmdinf] at hn
        cases hn
      refine ⟨{ m with memory := dictSet m.memory pid (loc.erase md.1) }, ?_⟩
      simp [LocalOptMemory.engine, LocalOptMemory.swap, hg, hp, hmdP]

theorem claim_C4_witness :
    ∃ m', GlobalOptMemory.engine.swap
      ⟨2, [], [], 0, ["A1", "B5"], [("A1", Dist.fin 1), ("B5", Dist.inf)]⟩ "A" =
      some ("B5", m') :=
  claim_C4.1 ⟨2, [], [], 0, ["A1", "B5"], [("A1", Dist.fin 1), ("B5", Dist.inf)]⟩
    "A" "B5" (by decide) (by decide)
    (by
      intro q dq hmem hq hne
      simp only [List.mem_cons, List.mem_singleton, Prod.mk.injEq] at hmem
      rcases hmem with ⟨rfl, rfl⟩ | (⟨rfl, rfl⟩ | h)
      · exact ⟨1, rfl⟩
      · exact absurd rfl hne
      · cases h)

/-! ## The LRU maximal-victim law -/

theorem glru_swap_max {m m' : GlobalLruMemory} {pid v : String}
    (h : GlobalLruMemory.engine.swap m pid = some (v, m')) :
    ∃ cv, (v, cv) ∈ m.memory ∧ (∀ q c, (q, c) ∈ m.memory → c ≤ cv) ∧
      m'.memory = dictDel m.memory v := by
  cases hp : pyExtreme (fun acc y => acc.2 < y.2) m.memory with
  | none => simp [GlobalLruMemory.engine, hp] at h
  | some p =>
    simp only [GlobalLruMemory.engine, hp, Option.some.injEq, Prod.mk.injEq] at h
    obtain ⟨rfl, rfl⟩ := h
    refine ⟨p.2, by simpa using pyExtreme_mem hp, ?_, rfl⟩
    intro q c hqc
    have hbest := pyExtreme_best
      (fun (a : String × Nat) => by simp)
      (fun (r y a : String × Nat) h1 h2 => by
        simp only [decide_eq_false_iff_not, decide_eq_true_eq] at h1 h2 ⊢
        omega)
      (fun (r a y : String × Nat) h1 h2 => by
        simp only [decide_eq_false_iff_not, decide_eq_true_eq] at h1 h2 ⊢
        omega) hp (q, c) hqc
    simp only [decide_eq_false_iff_not] at hbest
    omega

/-- C5: for the global LRU engine, `install` sets a page's recency counter
to 0, a hit (`use`) resets it to 0, `tick` increments every resident's
counter, and `swap` removes a resident with the largest counter; hence if Y
is touched (hit) on the current step, a fault on the following step whose
eligible residents are exactly Y and another page X evicts X, not Y. -/
theorem claim_C5 :
    (∀ (m m' : GlobalLruMemory) (pid pg : String),
      GlobalLruMemory.engine.allocate m pid pg = some m' →
      dictGet m'.memory pg = some 0) ∧
    (∀ (m m' : GlobalLruMemory) (pid pg : String),
      GlobalLruMemory.engine.use m pid pg = UseRes.ok m' →
      dictGet m'.memory pg = some 0) ∧
    (∀ (m : GlobalLruMemory) (pg : String) (c : Nat),
      dictGet m.memory pg = some c →
      dictGet (GlobalLruMemory.engine.tick m).memory pg = some (c + 1)) ∧
    (∀ (m m' : GlobalLruMemory) (pid v : String),
      GlobalLruMemory.engine.swap m pid = some (v, m') →
      ∃ cv, (v, cv) ∈ m.memory ∧ (∀ q c, (q, c) ∈ m.memory → c ≤ cv) ∧
        m'.memory = dictDel m.memory v) ∧
    (∀ (m : GlobalLruMemory) (X Y pid pid' : String) (cx cy : Nat),
      X ≠ Y →
      (m.memory = [(X, cx), (Y, cy)] ∨ m.memory = [(Y, cy), (X, cx)]) →
      ∃ m2 m3,
        GlobalLruMemory.engine.use (GlobalLruMemory.engine.tick m) pid Y =
          UseRes.ok m2 ∧
        GlobalLruMemory.engine.swap (GlobalLruMemory.engine.tick m2) pid' =
          some (X, m3)) := by
  refine ⟨?_, ?_, ?_, fun m m' pid v h => glru_swap_max h, ?_⟩
  · intro m m' pid pg h
    simp only [GlobalLruMemory.engine, Option.some.injEq] at h
    subst h
    exact dictGet_dictSet_self _ _ _
  · intro m m' pid pg h
    obtain ⟨c, _, rfl⟩ := glru_use_ok_eq h
    exact dictGet_dictSet_self _ _ _
  · intro m pg c h
    show dictGet (m.memory.map (fun p => (p.1, p.2 + 1))) pg = some (c + 1)
    rw [dictGet_map_val m.memory (fun x => x + 1) pg, h]
    rfl
  · intro m X Y pid pid' cx cy hXY hd
    have key : ∀ (m2 : GlobalLruMemory),
        (m2.memory = [(X, cx + 1), (Y, 0)] ∨ m2.memory = [(Y, 0), (X, cx + 1)]) →
        ∃ m3, GlobalLruMemory.engine.swap (GlobalLruMemory.engine.tick m2) pid' =
          some (X, m3) := by
      intro m2 hmem2
      have hres : 1 ≤ GlobalLruMemory.residents (GlobalLruMemory.engine.tick m2) := by
        show 1 ≤ (m2.memory.map (fun p => (p.1, p.2 + 1))).length
        rcases hmem2 with hm | hm <;> simp [hm]
      obtain ⟨v, m3, hs⟩ :=
        globalLruSpec.swap_ok (GlobalLruMemory.engine.tick m2) pid' hres trivial
      obtain ⟨cv, hvm, hmax, _⟩ := glru_swap_max hs
      have htick : (GlobalLruMemory.engine.tick m2).memory =
          m2.memory.map (fun p => (p.1, p.2 + 1)) := rfl
      have hvX : v = X := by
        rcases hmem2 with hm | hm
        · rw [htick, hm] at hvm hmax
          simp only [List.map_cons, List.map_nil] at hvm hmax
          have hXmem := hmax X (cx + 1 + 1) (by simp)
          simp only [List.mem_cons, Prod.mk.injEq] at hvm
          rcases hvm with ⟨h1, _⟩ | ⟨h1, h2⟩ | h
          · exact h1
          · exfalso; omega
          · simp at h
        · rw [htick, hm] at hvm hmax
          simp only [List.map_cons, List.map_nil] at hvm hmax
          have hXmem := hmax X (cx + 1 + 1) (by simp)
          simp only [List.mem_cons, Prod.mk.injEq] at hvm
          rcases hvm with ⟨h1, h2⟩ | ⟨h1, _⟩ | h
          · exfalso; omega
          · exact h1
          · simp at h
      exact ⟨m3, hvX ▸ hs⟩
    rcases hd with hd | hd
    · have huse : GlobalLruMemory.engine.use (GlobalLruMemory.engine.tick m) pid Y =
          UseRes.ok ⟨m.size, [(X, cx + 1), (Y, 0)]⟩ := by
        simp [GlobalLruMemory.engine, hd, dictGet, dictSet, hXY]
      obtain ⟨m3, hs⟩ := key ⟨m.size, [(X, cx + 1), (Y, 0)]⟩ (Or.inl rfl)
      exact ⟨_, m3, huse, hs⟩
    · have huse : GlobalLruMemory.engine.use (GlobalLruMemory.engine.tick m) pid Y =
          UseRes.ok ⟨m.size, [(Y, 0), (X, cx + 1)]⟩ := by
        simp [GlobalLruMemory.engine, hd, dictGet, dictSet, hXY]
      obtain ⟨m3, hs⟩ := key ⟨m.size, [(Y, 0), (X, cx + 1)]⟩ (Or.inr rfl)
      exact ⟨_, m3, huse, hs⟩

theorem claim_C5_witness :
    ∃ m2 m3,
      GlobalLruMemory.engine.use
        (GlobalLruMemory.engine.tick ⟨2, [("A1", 5), ("B1", 0)]⟩) "B" "B1" =
        UseRes.ok m2 ∧
      GlobalLruMemory.engine.swap (GlobalLruMemory.engine.tick m2) "B" =
        some ("A1", m3) :=
  claim_C5.2.2.2.2 ⟨2, [("A1", 5), ("B1", 0)]⟩ "A1" "B1" "B" "B" 5 0
    (by decide) (Or.inl rfl)


/-! ## Establishing the loop invariant at the start of a run -/

theorem midLocal_of_fresh {σ : Type} (psz : σ → String → Option Nat)
    (residents sizeN : σ → Nat) (extra : σ → Prop) (PgOk : σ → String → Prop)
    (accs : List (MemoryAccessor × Bool)) (mem : σ)
    (hfresh : ∀ e ∈ accs, e.1.calls = 0 ∧ e.2 = false)
    (hsome : ∀ e ∈ accs, (psz mem e.1.pid).isSome = true)
    (hres : residents mem = 0)
    (hlen : accs.length ≤ sizeN mem)
    (hex : extra mem)
    (hcov : ∀ e ∈ accs, ∀ s ∈ e.1.accesses, PgOk mem s) :
    MidLocal psz residents sizeN extra PgOk [] accs mem := by
  refine ⟨0, ⟨?_, ?_, ?_⟩, ?_, ?_, ?_, ?_, hex, ?_⟩
  · intro e he _
    exact (hfresh e he).1
  · intro e he _
    simp at he
  · intro e he hef
    simp only [List.nil_append] at he
    rw [(hfresh e he).2] at hef
    cases hef
  · simpa using hsome
  · intro e he hc n hn
    simp only [List.nil_append] at he
    have h0 := (hfresh e he).1
    simp [consumed, h0] at hc
  · simp only [List.nil_append]
    rw [hres]
    exact Nat.zero_le _
  · simpa using hlen
  · simpa using hcov

/-- C7: under the Simulator's call discipline and the documented inputs
(fresh accessors, capacity at least the number of processes, a partition for
every accessor's pid for the local engines, and — for Optimal — distance
precomputation covering every referenced page), whenever `swap` is reached
its eligible set is nonempty, so the empty-collection error branch inside
`swap` (and every other runtime-error branch) is unreachable: the run never
reports an engine error. -/
theorem claim_C7 :
    (∀ (accs : List (MemoryAccessor × Bool)) (mem : GlobalOptMemory)
      (fuel f0 : Nat) (tr0 : List TraceEntry),
      1 ≤ mem.size → mem.covered →
      (∀ e ∈ accs, ∀ s ∈ e.1.accesses, s ∈ mem.pages) →
      simLoopFuel GlobalOptMemory.engine fuel ⟨accs, mem, f0, tr0⟩ ≠
        SimResult.engineError) ∧
    (∀ (accs : List (MemoryAccessor × Bool)) (mem : GlobalFifoMemory)
      (fuel f0 : Nat) (tr0 : List TraceEntry),
      1 ≤ mem.size →
      simLoopFuel GlobalFifoMemory.engine fuel ⟨accs, mem, f0, tr0⟩ ≠
        SimResult.engineError) ∧
    (∀ (accs : List (MemoryAccessor × Bool)) (mem : GlobalLfuMemory)
      (fuel f0 : Nat) (tr0 : List TraceEntry),
      1 ≤ mem.size →
      simLoopFuel GlobalLfuMemory.engine fuel ⟨accs, mem, f0, tr0⟩ ≠
        SimResult.engineError) ∧
    (∀ (accs : List (MemoryAccessor × Bool)) (mem : GlobalLruMemory)
      (fuel f0 : Nat) (tr0 : List TraceEntry),
      1 ≤ mem.size →
      simLoopFuel GlobalLruMemory.engine fuel ⟨accs, mem, f0, tr0⟩ ≠
        SimResult.engineError) ∧
    (∀ (accs : List (MemoryAccessor × Bool)) (mem : LocalOptMemory)
      (fuel f0 : Nat) (tr0 : List TraceEntry),
      (∀ e ∈ accs, e.1.calls = 0 ∧ e.2 = false) →
      (∀ e ∈ accs, (LocalOptMemory.psz mem e.1.pid).isSome = true) →
      LocalOptMemory.residents mem = 0 →
      accs.length ≤ mem.size →
      mem.covered →
      (∀ e ∈ accs, ∀ s ∈ e.1.accesses, s ∈ mem.pages) →
      simLoopFuel LocalOptMemory.engine fuel ⟨accs, mem, f0, tr0⟩ ≠
        SimResult.engineError) ∧
    (∀ (accs : List (MemoryAccessor × Bool)) (mem : LocalFifoMemory)
      (fuel f0 : Nat) (tr0 : List TraceEntry),
      (∀ e ∈ accs, e.1.calls = 0 ∧ e.2 = false) →
      (∀ e ∈ accs, (LocalFifoMemory.psz mem e.1.pid).isSome = true) →
      LocalFifoMemory.residents mem = 0 →
      accs.length ≤ mem.size →
      simLoopFuel LocalFifoMemory.engine fuel ⟨accs, mem, f0, tr0⟩ ≠
        SimResult.engineError) ∧
    (∀ (accs : List (MemoryAccessor × Bool)) (mem : LocalLfuMemory)
      (fuel f0 : Nat) (tr0 : List TraceEntry),
      (∀ e ∈ accs, e.1.calls = 0 ∧ e.2 = false) →
      (∀ e ∈ accs, (LocalLfuMemory.psz mem e.1.pid).isSome = true) →
      LocalLfuMemory.residents mem = 0 →
      accs.length ≤ mem.size →
      simLoopFuel LocalLfuMemory.engine fuel ⟨accs, mem, f0, tr0⟩ ≠
        SimResult.engineError) ∧
    (∀ (accs : List (MemoryAccessor × Bool)) (mem : LocalLruMemory)
      (fuel f0 : Nat) (tr0 : List TraceEntry),
      (∀ e ∈ accs, e.1.calls = 0 ∧ e.2 = false) →
      (∀ e ∈ accs, (LocalLruMemory.psz mem e.1.pid).isSome = true) →
      LocalLruMemory.residents mem = 0 →
      accs.length ≤ mem.size →
      simLoopFuel LocalLruMemory.engine fuel ⟨accs, mem, f0, tr0⟩ ≠
        SimResult.engineError) := by
  refine ⟨?_, ?_, ?_, ?_, ?_, ?_, ?_, ?_⟩
  · intro accs mem fuel f0 tr0 hsz hcov hpages
    exact midGlobal_no_error globalOptSpec fuel ⟨accs, mem, f0, tr0⟩
      ⟨hsz, hcov, by simpa using hpages⟩
  · intro accs mem fuel f0 tr0 hsz
    exact midGlobal_no_error globalFifoSpec fuel ⟨accs, mem, f0, tr0⟩
      ⟨hsz, trivial, fun _ _ _ _ => trivial⟩
  · intro accs mem fuel f0 tr0 hsz
    exact midGlobal_no_error globalLfuSpec fuel ⟨accs, mem, f0, tr0⟩
      ⟨hsz, trivial, fun _ _ _ _ => trivial⟩
  · intro accs mem fuel f0 tr0 hsz
    exact midGlobal_no_error globalLruSpec fuel ⟨accs, mem, f0, tr0⟩
      ⟨hsz, trivial, fun _ _ _ _ => trivial⟩
  · intro accs mem fuel f0 tr0 hfresh hsome hres hlen hcov hpages
    exact midLocal_no_error localOptSpec fuel ⟨accs, mem, f0, tr0⟩
      (midLocal_of_fresh _ _ _ _ _ accs mem hfresh hsome hres hlen hcov hpages)
  · intro accs mem fuel f0 tr0 hfresh hsome hres hlen
    exact midLocal_no_error localFifoSpec fuel ⟨accs, mem, f0, tr0⟩
      (midLocal_of_fresh _ _ _ _ _ accs mem hfresh hsome hres hlen trivial
        (fun _ _ _ _ => trivial))
  · intro accs mem fuel f0 tr0 hfresh hsome hres hlen
    exact midLocal_no_error localLfuSpec fuel ⟨accs, mem, f0, tr0⟩
      (midLocal_of_fresh _ _ _ _ _ accs mem hfresh hsome hres hlen trivial
        (fun _ _ _ _ => trivial))
  · intro accs mem fuel f0 tr0 hfresh hsome hres hlen
    exact midLocal_no_error localLruSpec fuel ⟨accs, mem, f0, tr0⟩
      (midLocal_of_fresh _ _ _ _ _ accs mem hfresh hsome hres hlen trivial
        (fun _ _ _ _ => trivial))

theorem claim_C7_witness :
    simLoopFuel LocalFifoMemory.engine 5
      ⟨[(MemoryAccessor.make "A" [1, 2], false),
        (MemoryAccessor.make "B" [1], false)],
       ⟨2, [("A", []), ("B", [])]⟩, 0, []⟩ ≠ SimResult.engineError :=
  claim_C7.2.2.2.2.2.1
    [(MemoryAccessor.make "A" [1, 2], false), (MemoryAccessor.make "B" [1], false)]
    ⟨2, [("A", []), ("B", [])]⟩ 5 0 []
    (by decide) (by decide) (by decide) (by decide)

end PageSim
